import Mathlib

/-! Verification of the transform-domain audio steganography engine of the
repository: the message codec (`MessageProcessor`), the shared end-marker
scanning protocol, and the three embedding strategies
(`DFTSteganographyFloat32`, `DCTSteganographyFloat32`,
`DWTSteganographyFloat32`), modelled over exact real and complex arithmetic.
Text is a list of character code points (`List ℕ`); a bit string is a
`List Bool` (`true` = '1'); a sample channel is a `List ℝ`. -/

namespace Stego

/-- Little-endian binary digits of `n`, with explicit fuel so the recursion is
structural and reduces in the kernel.  `natBitsAux n n` is Python's
`format(n, 'b')` reversed (and `[]` for `n = 0`, matching `'0'` up to the
leading-zero padding applied by `charBits`). -/
def natBitsAux : ℕ → ℕ → List Bool
  | _, 0 => []
  | 0, _ + 1 => []
  | f + 1, n + 1 => decide ((n + 1) % 2 = 1) :: natBitsAux f ((n + 1) / 2)

/-- Binary digits of `n`, most significant bit first (Python `format(n, 'b')`,
with `[]` for `0`). -/
def natBits (n : ℕ) : List Bool := (natBitsAux n n).reverse

/-- Python `format(ord(i), '08b')`: the binary representation of a code point,
zero-padded on the left to a minimum width of 8 — wider (never truncated) when
the code point needs more than 8 bits. -/
def charBits (c : ℕ) : List Bool :=
  List.replicate (8 - (natBits c).length) false ++ natBits c

/-- MessageProcessor.text_to_binary: concatenation of `format(ord(i), '08b')`
over the characters of the text. -/
def text_to_binary (text : List ℕ) : List Bool :=
  (text.map charBits).flatten

/-- Python `int(bits, 2)` for an 8-bit group, MSB first. -/
def decodeByte (bits : List Bool) : ℕ :=
  bits.foldl (fun acc b => 2 * acc + b.toNat) 0

/-- Splits a bit string into consecutive 8-bit groups, decoding each with
`int(_, 2)`; fuel keeps the recursion structural. -/
def bytesOfAux : ℕ → List Bool → List ℕ
  | 0, _ => []
  | f + 1, l => if 8 ≤ l.length then decodeByte (l.take 8) :: bytesOfAux f (l.drop 8) else []

/-- All complete 8-bit groups of a bit string, decoded. -/
def bytesOf (l : List Bool) : List ℕ := bytesOfAux l.length l

/-- MessageProcessor.binary_to_text: if the length is not a multiple of 8 the
trailing `len % 8` bits are dropped (`binary[:-(len % 8)]`), then every 8-bit
group is mapped back to a code point via `chr(int(group, 2))`. -/
def binary_to_text (binary : List Bool) : List ℕ :=
  let trimmed := if binary.length % 8 ≠ 0
    then binary.take (binary.length - binary.length % 8) else binary
  bytesOf trimmed

/-- The fixed 16-bit end-of-message marker `'1111111111111110'` shared by the
three strategies (`END_MARKER`). -/
def END_MARKER : List Bool :=
  [true, true, true, true, true, true, true, true,
   true, true, true, true, true, true, true, false]

/-- The framed bit string transmitted over the channel:
`text_to_binary(message) + END_MARKER`. -/
def frame (msg : List ℕ) : List Bool := text_to_binary msg ++ END_MARKER

/-- Code points of the extraction-failure sentinel string
`"Не вдалося вилучити повідомлення"` returned by the DCT and DWT strategies
when the scanned (marker-stripped) bit string is empty. -/
def failMessage : List ℕ :=
  [1053, 1077, 32, 1074, 1076, 1072, 1083, 1086, 1089, 1103, 32,
   1074, 1080, 1083, 1091, 1095, 1080, 1090, 1080, 32,
   1087, 1086, 1074, 1110, 1076, 1086, 1084, 1083, 1077, 1085, 1085, 1103]

/- ### Basic codec lemmas -/

theorem natBitsAux_lt_two_pow : ∀ f n, n ≤ f → n < 2 ^ (natBitsAux f n).length := by
  intro f
  induction f with
  | zero =>
    intro n hn
    interval_cases n
    simp [natBitsAux]
  | succ f ih =>
    intro n hn
    cases n with
    | zero => simp [natBitsAux]
    | succ m =>
      have hdiv : (m + 1) / 2 ≤ f := by omega
      have h2 := ih ((m + 1) / 2) hdiv
      simp only [natBitsAux, List.length_cons, pow_succ]
      omega

theorem natBits_lt_two_pow (n : ℕ) : n < 2 ^ (natBits n).length := by
  have := natBitsAux_lt_two_pow n n le_rfl
  simpa [natBits] using this

theorem charBits_length (c : ℕ) :
    (charBits c).length = max 8 (natBits c).length := by
  simp [charBits]
  omega

theorem charBits_length_ge (c : ℕ) : 8 ≤ (charBits c).length := by
  rw [charBits_length]; omega

theorem charBits_length_of_big (c : ℕ) (h : 256 ≤ c) : 9 ≤ (charBits c).length := by
  rw [charBits_length]
  have h2 := natBits_lt_two_pow c
  by_contra hlt
  have : (natBits c).length ≤ 8 := by omega
  have : 2 ^ (natBits c).length ≤ 2 ^ 8 := Nat.pow_le_pow_right (by norm_num) this
  omega

set_option maxRecDepth 8000 in
theorem charBits_small : ∀ c < 256, (charBits c).length = 8 ∧ decodeByte (charBits c) = c := by
  decide

theorem text_to_binary_length_ge (t : List ℕ) :
    8 * t.length ≤ (text_to_binary t).length := by
  induction t with
  | nil => simp [text_to_binary]
  | cons c t ih =>
    simp only [text_to_binary, List.map_cons, List.flatten_cons, List.length_append,
      List.length_cons] at *
    have := charBits_length_ge c
    omega

theorem text_to_binary_length_small {t : List ℕ} (h : ∀ c ∈ t, c < 256) :
    (text_to_binary t).length = 8 * t.length := by
  induction t with
  | nil => simp [text_to_binary]
  | cons c t ih =>
    have hc := (charBits_small c (h c (by simp))).1
    have ht := ih (fun x hx => h x (by simp [hx]))
    simp only [text_to_binary, List.map_cons, List.flatten_cons, List.length_append,
      List.length_cons] at *
    omega

theorem bytesOfAux_fuel : ∀ f g l, l.length ≤ f → l.length ≤ g →
    bytesOfAux f l = bytesOfAux g l := by
  intro f
  induction f with
  | zero =>
    intro g l hf _
    have : l = [] := List.eq_nil_of_length_eq_zero (by omega)
    subst this
    cases g <;> simp [bytesOfAux]
  | succ f ih =>
    intro g l hf hg
    cases g with
    | zero =>
      have : l = [] := List.eq_nil_of_length_eq_zero (by omega)
      subst this
      simp [bytesOfAux]
    | succ g =>
      simp only [bytesOfAux]
      by_cases h8 : 8 ≤ l.length
      · rw [if_pos h8, if_pos h8, ih g (l.drop 8) (by simp; omega) (by simp; omega)]
      · rw [if_neg h8, if_neg h8]

theorem bytesOf_append8 (l rest : List Bool) (h : l.length = 8) :
    bytesOf (l ++ rest) = decodeByte l :: bytesOf rest := by
  unfold bytesOf
  have hlen : (l ++ rest).length = 8 + rest.length := by simp [h]
  rw [bytesOfAux_fuel (l ++ rest).length ((7 + rest.length) + 1) (l ++ rest) le_rfl (by omega)]
  simp only [bytesOfAux, hlen]
  rw [if_pos (by simp [h])]
  congr 1
  · congr 1
    rw [List.take_append_eq_append_take, h]
    simp [h]
  · rw [List.drop_append_eq_append_drop, h]
    have hnil : l.drop 8 = [] := List.drop_eq_nil_of_le (by omega)
    simp [hnil]
    exact bytesOfAux_fuel (7 + rest.length) rest.length rest (by omega) le_rfl

theorem bytesOf_length : ∀ l : List Bool, (bytesOf l).length = l.length / 8 := by
  have key : ∀ f (l : List Bool), l.length ≤ f → (bytesOfAux f l).length = l.length / 8 := by
    intro f
    induction f with
    | zero =>
      intro l hf
      have : l = [] := List.eq_nil_of_length_eq_zero (by omega)
      subst this; simp [bytesOfAux]
    | succ f ih =>
      intro l hf
      simp only [bytesOfAux]
      by_cases h8 : 8 ≤ l.length
      · rw [if_pos h8]
        have := ih (l.drop 8) (by simp; omega)
        simp only [List.length_drop] at this
        simp [this]
        omega
      · rw [if_neg h8]
        simp
        omega
  intro l
  exact key l.length l le_rfl

theorem binary_to_text_multiple (l : List Bool) (h : l.length % 8 = 0) :
    binary_to_text l = bytesOf l := by
  simp [binary_to_text, h]

theorem codec_round_trip_aux {t : List ℕ} (h : ∀ c ∈ t, c < 256) :
    bytesOf (text_to_binary t) = t := by
  induction t with
  | nil => simp [text_to_binary, bytesOf, bytesOfAux]
  | cons c t ih =>
    have hc := charBits_small c (h c (by simp))
    have : text_to_binary (c :: t) = charBits c ++ text_to_binary t := by
      simp [text_to_binary]
    rw [this, bytesOf_append8 _ _ hc.1, hc.2, ih (fun x hx => h x (by simp [hx]))]

/-- C9. Implicit codec round trip: for texts all of whose code points are at
most 255, `binary_to_text (text_to_binary t) = t`, and `text_to_binary t` has
length exactly `8 * t.length`. -/
theorem codec_round_trip (t : List ℕ) (h : ∀ c ∈ t, c < 256) :
    binary_to_text (text_to_binary t) = t ∧ (text_to_binary t).length = 8 * t.length := by
  have hlen := text_to_binary_length_small h
  refine ⟨?_, hlen⟩
  rw [binary_to_text_multiple _ (by omega)]
  exact codec_round_trip_aux h

/-- Witness for C9 at the concrete text "Hi" = [72, 105]. -/
theorem codec_round_trip_witness :
    (∀ c ∈ [72, 105], c < 256) ∧
      binary_to_text (text_to_binary [72, 105]) = [72, 105] ∧
      (text_to_binary [72, 105]).length = 8 * ([72, 105] : List ℕ).length :=
  ⟨by decide, codec_round_trip [72, 105] (by decide)⟩

/-- C5 counterexample: `text_to_binary` applied to the single character with
code point 256 does not fail — it silently produces the 9-bit string
`'100000000'`, and decoding it back does not recover the text. -/
theorem text_to_binary_big_counterexample :
    text_to_binary [256]
        = [true, false, false, false, false, false, false, false, false] ∧
      (text_to_binary [256]).length = 9 ∧
      binary_to_text (text_to_binary [256]) = [128] := by
  refine ⟨by decide, by decide, by decide⟩

/-- C5 amended: for every text containing a character whose code point exceeds
255, `text_to_binary` does not fail; it silently encodes that character into
more than 8 bits (its full binary representation), so the output is strictly
longer than 8 bits per character. -/
theorem text_to_binary_big (t : List ℕ) (h : ∃ c ∈ t, 256 ≤ c) :
    8 * t.length < (text_to_binary t).length := by
  induction t with
  | nil => simp at h
  | cons c t ih =>
    have hsplit : text_to_binary (c :: t) = charBits c ++ text_to_binary t := by
      simp [text_to_binary]
    rcases h with ⟨d, hd, hd256⟩
    simp only [List.mem_cons] at hd
    rw [hsplit]
    simp only [List.length_append, List.length_cons]
    rcases hd with rfl | hdt
    · have h9 := charBits_length_of_big d hd256
      have := text_to_binary_length_ge t
      omega
    · have h8 := charBits_length_ge c
      have := ih ⟨d, hdt, hd256⟩
      omega

/-- Witness for C5 amended at the concrete text [256]. -/
theorem text_to_binary_big_witness :
    (∃ c ∈ ([256] : List ℕ), 256 ≤ c) ∧ 8 * ([256] : List ℕ).length < (text_to_binary [256]).length :=
  ⟨by decide, text_to_binary_big [256] (by decide)⟩

/-- C6. Alignment loss: `binary_to_text` on a bit string whose length is not a
multiple of 8 does not fail; it drops the trailing `length % 8` bits, decoding
only the leading complete 8-bit groups (`length / 8` characters). -/
theorem binary_to_text_alignment (bs : List Bool) (h : bs.length % 8 ≠ 0) :
    binary_to_text bs = binary_to_text (bs.take (8 * (bs.length / 8))) ∧
      (binary_to_text bs).length = bs.length / 8 := by
  have he : bs.length - bs.length % 8 = 8 * (bs.length / 8) := by omega
  have hb : binary_to_text bs = bytesOf (bs.take (8 * (bs.length / 8))) := by
    simp only [binary_to_text, if_pos h, he]
  have htake : (bs.take (8 * (bs.length / 8))).length = 8 * (bs.length / 8) := by
    simp
    omega
  constructor
  · rw [hb, binary_to_text_multiple _ (by rw [htake]; omega)]
  · rw [hb, bytesOf_length, htake]
    omega

/-- Witness for C6 at a concrete 10-bit input: the encoding of 'A' followed by
two extra bits decodes as just ['A'], using only the first 8 bits. -/
theorem binary_to_text_alignment_witness :
    (charBits 65 ++ [true, false]).length % 8 ≠ 0 ∧
      binary_to_text (charBits 65 ++ [true, false])
        = binary_to_text ((charBits 65 ++ [true, false]).take
            (8 * ((charBits 65 ++ [true, false]).length / 8))) ∧
      (binary_to_text (charBits 65 ++ [true, false])).length
        = (charBits 65 ++ [true, false]).length / 8 :=
  ⟨by decide, binary_to_text_alignment (charBits 65 ++ [true, false]) (by decide)⟩

/- ### Marker scanning shared by the three extract loops -/

/-- Streaming marker scan shared by the three `extract` loops: bits are
appended one at a time to the accumulated bit string (`binary_message += bit`);
as soon as the accumulated string ends with `END_MARKER`
(`binary_message.endswith(self.END_MARKER)`) the 16 marker bits are stripped
and the loop breaks.  Returns the final bit string and whether the marker was
found. -/
def scanAux : List Bool → List Bool → List Bool × Bool
  | acc, [] => (acc, false)
  | acc, b :: bs =>
      if END_MARKER <:+ (acc ++ [b])
      then ((acc ++ [b]).take ((acc ++ [b]).length - 16), true)
      else scanAux (acc ++ [b]) bs

theorem scanAux_cons (acc : List Bool) (b : Bool) (bs : List Bool) :
    scanAux acc (b :: bs) =
      if END_MARKER <:+ (acc ++ [b])
      then ((acc ++ [b]).take ((acc ++ [b]).length - 16), true)
      else scanAux (acc ++ [b]) bs := rfl

/-- The scan of a full candidate bit sequence, starting from the empty
accumulated string. -/
def runScan (bits : List Bool) : List Bool × Bool := scanAux [] bits

/-- A bit string is marker-clean when no proper leading portion of it ends
with `END_MARKER`, so the streaming scan cannot stop early. -/
def MarkerClean (l : List Bool) : Prop :=
  ∀ k, k < l.length → ¬ (END_MARKER <:+ l.take k)

instance (l : List Bool) : Decidable (MarkerClean l) := by
  unfold MarkerClean
  infer_instance

theorem scanAux_mid : ∀ (l : List Bool) (rest acc : List Bool), l ≠ [] →
    (∀ k, k < l.length → ¬ (END_MARKER <:+ acc ++ l.take k)) →
    (END_MARKER <:+ acc ++ l) →
    scanAux acc (l ++ rest) = ((acc ++ l).take ((acc ++ l).length - 16), true) := by
  intro l
  induction l with
  | nil => intro rest acc hne _ _; exact absurd rfl hne
  | cons b l2 ih =>
    intro rest acc _ hclean hend
    cases l2 with
    | nil =>
      rw [List.cons_append, List.nil_append, scanAux_cons,
        if_pos (by simpa using hend)]
    | cons c l3 =>
      have hk1 : ¬ (END_MARKER <:+ acc ++ [b]) := by
        have := hclean 1 (by simp)
        simpa using this
      rw [List.cons_append, scanAux_cons, if_neg hk1]
      have hstep := ih (rest) (acc ++ [b]) (by simp)
        (fun k hk => by
          have := hclean (k + 1) (by simpa using Nat.succ_lt_succ hk)
          simpa [List.append_assoc] using this)
        (by simpa [List.append_assoc] using hend)
      simpa [List.append_assoc] using hstep

/-- If the candidate bit sequence starts with a marker-clean framed message,
the streaming scan stops exactly at the end of the marker and returns the
message bits with the marker stripped, regardless of the bits that follow. -/
theorem runScan_frame (msg rest : List Bool) (hclean : MarkerClean (msg ++ END_MARKER)) :
    runScan ((msg ++ END_MARKER) ++ rest) = (msg, true) := by
  unfold runScan
  have hne : msg ++ END_MARKER ≠ [] := by simp [END_MARKER]
  have hend : END_MARKER <:+ (([] : List Bool) ++ (msg ++ END_MARKER)) := by
    simp only [List.nil_append]
    exact List.suffix_append msg END_MARKER
  have h := scanAux_mid (msg ++ END_MARKER) rest [] hne
    (fun k hk => by simpa using hclean k hk) hend
  rw [h]
  simp only [List.nil_append]
  have hlen : (msg ++ END_MARKER).length - 16 = msg.length := by
    simp [END_MARKER]
  rw [hlen, List.take_left]

theorem decodeByte_lt (l : List Bool) : decodeByte l < 2 ^ l.length := by
  suffices h : ∀ (l : List Bool) (acc : ℕ),
      l.foldl (fun acc b => 2 * acc + b.toNat) acc < (acc + 1) * 2 ^ l.length by
    have := h l 0
    simpa [decodeByte] using this
  intro l
  induction l with
  | nil => simp
  | cons b l ih =>
    intro acc
    have h1 := ih (2 * acc + b.toNat)
    have hb : b.toNat ≤ 1 := by cases b <;> simp
    calc (b :: l).foldl (fun acc b => 2 * acc + b.toNat) acc
        = l.foldl (fun acc b => 2 * acc + b.toNat) (2 * acc + b.toNat) := by simp
      _ < (2 * acc + b.toNat + 1) * 2 ^ l.length := h1
      _ ≤ (acc + 1) * 2 ^ (b :: l).length := by
          simp only [List.length_cons, pow_succ]
          nlinarith [Nat.pos_pow_of_pos l.length (show 0 < 2 by norm_num), hb]

theorem bytesOf_mem_lt : ∀ (f : ℕ) (l : List Bool), ∀ c ∈ bytesOfAux f l, c < 256 := by
  intro f
  induction f with
  | zero => intro l c hc; simp [bytesOfAux] at hc
  | succ f ih =>
    intro l c hc
    simp only [bytesOfAux] at hc
    by_cases h8 : 8 ≤ l.length
    · rw [if_pos h8] at hc
      rcases List.mem_cons.mp hc with rfl | hmem
      · have := decodeByte_lt (l.take 8)
        have hlen : (l.take 8).length = 8 := by simp; omega
        rw [hlen] at this
        omega
      · exact ih _ c hmem
    · rw [if_neg h8] at hc; simp at hc

/-- Every code point produced by `binary_to_text` is below 256, so no decoded
text can ever equal the extraction-failure sentinel (which contains Cyrillic
code points above 255). -/
theorem binary_to_text_ne_failMessage (bits : List Bool) :
    binary_to_text bits ≠ failMessage := by
  intro h
  have h1053 : (1053 : ℕ) ∈ binary_to_text bits := by rw [h]; simp [failMessage]
  have : (1053 : ℕ) < 256 := by
    have : ∀ c ∈ binary_to_text bits, c < 256 := by
      intro c hc
      simp only [binary_to_text] at hc
      exact bytesOf_mem_lt _ _ c hc
    exact this 1053 h1053
  omega

/- ### Trigonometric sums for the orthonormal cosine transform -/

noncomputable section

theorem cos_prod_to_sum (A B : ℝ) :
    Real.cos A * Real.cos B = (Real.cos (A + B) + Real.cos (A - B)) / 2 := by
  have h1 := Real.cos_add A B
  have h2 := Real.cos_sub A B
  linarith

theorem sum_cos_mul_sin (θ : ℝ) (N : ℕ) :
    (∑ n ∈ Finset.range N, Real.cos ((2 * (n : ℝ) + 1) * θ)) * (2 * Real.sin θ)
      = Real.sin (2 * N * θ) := by
  induction N with
  | zero => simp
  | succ N ih =>
    rw [Finset.sum_range_succ, add_mul, ih]
    have key : Real.sin ((2 * (N : ℝ) + 1) * θ + θ) - Real.sin ((2 * (N : ℝ) + 1) * θ - θ)
        = 2 * Real.cos ((2 * (N : ℝ) + 1) * θ) * Real.sin θ := by
      rw [Real.sin_add, Real.sin_sub]; ring
    have e1 : (2 * (N : ℝ) + 1) * θ + θ = 2 * ((N : ℝ) + 1) * θ := by ring
    have e2 : (2 * (N : ℝ) + 1) * θ - θ = 2 * (N : ℝ) * θ := by ring
    rw [e1, e2] at key
    push_cast
    linarith

/-- The base angle of row `m` of the cosine transform of size `N`, at sample
`n`: `(2n+1)·mπ/(2N)`. -/
def oddAngle (N m n : ℕ) : ℝ :=
  (2 * (n : ℝ) + 1) * ((m : ℝ) * Real.pi / (2 * (N : ℝ)))

theorem sum_cos_oddAngle_zero (N m : ℕ) (h0 : 0 < m) (hm : m < 2 * N) :
    ∑ n ∈ Finset.range N, Real.cos (oddAngle N m n) = 0 := by
  have hN : 0 < N := by omega
  have hNR : (0 : ℝ) < N := by exact_mod_cast hN
  have hmR : (0 : ℝ) < m := by exact_mod_cast h0
  set θ := (m : ℝ) * Real.pi / (2 * (N : ℝ)) with hθdef
  have hθpos : 0 < θ := by
    apply div_pos (mul_pos hmR Real.pi_pos)
    linarith
  have hθlt : θ < Real.pi := by
    rw [hθdef, div_lt_iff₀ (by linarith)]
    have : (m : ℝ) < 2 * N := by exact_mod_cast hm
    nlinarith [Real.pi_pos]
  have hsin : Real.sin θ ≠ 0 := ne_of_gt (Real.sin_pos_of_pos_of_lt_pi hθpos hθlt)
  have h2 : 2 * (N : ℝ) * θ = (m : ℝ) * Real.pi := by
    rw [hθdef]; field_simp
  have hprod := sum_cos_mul_sin θ N
  rw [h2] at hprod
  have hzero : Real.sin ((m : ℝ) * Real.pi) = 0 := Real.sin_nat_mul_pi m
  rw [hzero] at hprod
  rcases mul_eq_zero.mp hprod with h | h
  · simpa [oddAngle, hθdef] using h
  · exact absurd (by linarith [mul_eq_zero.mp hprod] : Real.sin θ = 0) hsin

theorem sum_cos_oddAngle_self (N : ℕ) :
    ∑ n ∈ Finset.range N, Real.cos (oddAngle N 0 n) = N := by
  have : ∀ n ∈ Finset.range N, Real.cos (oddAngle N 0 n) = 1 := by
    intro n _
    simp [oddAngle]
  rw [Finset.sum_congr rfl this]
  simp

/- ### The orthonormal DCT-II / DCT-III pair used by `scipy.fftpack`
`dct(x, type=2, norm='ortho')` computes
`y[k] = f(k) * 2 * sum_n x[n] cos(pi*k*(2n+1)/(2N))` with `f(0) = sqrt(1/(4N))`
and `f(k) = sqrt(1/(2N))`; `idct(y, type=2, norm='ortho')` is its inverse, the
orthonormal DCT-III. -/

/-- The angle `pi*k*(2n+1)/(2N)` of the cosine transforms. -/
def dctAngle (N k n : ℕ) : ℝ :=
  Real.pi * (k : ℝ) * (2 * (n : ℝ) + 1) / (2 * (N : ℝ))

theorem dctAngle_eq_oddAngle (N k n : ℕ) : dctAngle N k n = oddAngle N k n := by
  unfold dctAngle oddAngle
  ring

theorem cos_dctAngle_prod (N k n d : ℕ)
    (hd : ((d : ℝ) = (k : ℝ) - 5) ∨ ((d : ℝ) = 5 - (k : ℝ))) :
    Real.cos (dctAngle N k n) * Real.cos (dctAngle N 5 n)
      = (Real.cos (oddAngle N (k + 5) n) + Real.cos (oddAngle N d n)) / 2 := by
  rw [cos_prod_to_sum]
  have h1 : dctAngle N k n + dctAngle N 5 n = oddAngle N (k + 5) n := by
    unfold dctAngle oddAngle; push_cast; ring
  rcases hd with hd | hd
  · have h2 : dctAngle N k n - dctAngle N 5 n = oddAngle N d n := by
      unfold dctAngle oddAngle; rw [hd]; ring
    rw [h1, h2]
  · have h2 : dctAngle N k n - dctAngle N 5 n = -oddAngle N d n := by
      unfold dctAngle oddAngle; rw [hd]; ring
    rw [h1, h2, Real.cos_neg]

/-- Orthogonality of row 5 of the size-`N` cosine system against every row. -/
theorem dct_orth (N k : ℕ) (hN : 10 ≤ N) (hk : k < N) :
    ∑ n ∈ Finset.range N, Real.cos (dctAngle N k n) * Real.cos (dctAngle N 5 n)
      = if k = 5 then (N : ℝ) / 2 else 0 := by
  have split : ∀ (d : ℕ), ((d : ℝ) = (k : ℝ) - 5) ∨ ((d : ℝ) = 5 - (k : ℝ)) →
      ∑ n ∈ Finset.range N, Real.cos (dctAngle N k n) * Real.cos (dctAngle N 5 n)
        = ((∑ n ∈ Finset.range N, Real.cos (oddAngle N (k + 5) n))
           + ∑ n ∈ Finset.range N, Real.cos (oddAngle N d n)) / 2 := by
    intro d hd
    rw [Finset.sum_congr rfl (fun n _ => cos_dctAngle_prod N k n d hd),
      ← Finset.sum_div, Finset.sum_add_distrib]
  have hsum5 : ∑ n ∈ Finset.range N, Real.cos (oddAngle N (k + 5) n) = 0 :=
    sum_cos_oddAngle_zero N (k + 5) (by omega) (by omega)
  by_cases hk5 : k = 5
  · subst hk5
    rw [split 0 (Or.inl (by norm_num)), hsum5, sum_cos_oddAngle_self]
    simp
  · rw [if_neg hk5]
    by_cases hord : 5 ≤ k
    · rw [split (k - 5) (Or.inl (by push_cast [Nat.cast_sub hord]; ring)),
        hsum5, sum_cos_oddAngle_zero N (k - 5) (by omega) (by omega)]
      simp
    · rw [split (5 - k) (Or.inr (by push_cast [Nat.cast_sub (by omega : k ≤ 5)]; ring)),
        hsum5, sum_cos_oddAngle_zero N (5 - k) (by omega) (by omega)]
      simp

/- ### DCTSteganographyFloat32 -/

/-- The typed capacity failure raised by the three `embed` methods when the
framed message exceeds the channel capacity (`raise ValueError(...)`; the
spec's `CapacityError`). -/
inductive StegoError where
  | capacityError
deriving DecidableEq

/-- `self.block_size = 1024`. -/
def block_size : ℕ := 1024

/-- `self.target_coef = 5`. -/
def target_coef : ℕ := 5

/-- `self.bit1_value = 0.1`. -/
def dct_bit1_value : ℝ := 0.1

/-- `self.bit0_value = -0.1`. -/
def dct_bit0_value : ℝ := -0.1

/-- `self.threshold = 0.0` of the DCT strategy. -/
def dct_threshold : ℝ := 0

/-- Orthonormal scaling of `scipy.fftpack.dct(_, type=2, norm='ortho')`:
the raw type-2 coefficient `2 * sum` is multiplied by `sqrt(1/(4N))` for
`k = 0` and by `sqrt(1/(2N))` otherwise. -/
def dctScale (N k : ℕ) : ℝ :=
  if k = 0 then 2 * Real.sqrt (1 / (4 * (N : ℝ))) else 2 * Real.sqrt (1 / (2 * (N : ℝ)))

/-- Coefficient `k` of `scipy.fftpack.dct(x, type=2, norm='ortho')`. -/
def dctCoef (x : List ℝ) (k : ℕ) : ℝ :=
  dctScale x.length k *
    ∑ n ∈ Finset.range x.length, x.getD n 0 * Real.cos (dctAngle x.length k n)

/-- The full orthonormal DCT-II coefficient array of a block. -/
def dctList (x : List ℝ) : List ℝ := (List.range x.length).map (dctCoef x)

/-- Orthonormal scaling of the inverse transform (DCT-III with
`norm='ortho'`). -/
def idctScale (N k : ℕ) : ℝ :=
  if k = 0 then Real.sqrt (1 / (N : ℝ)) else Real.sqrt (2 / (N : ℝ))

/-- `scipy.fftpack.idct(y, type=2, norm='ortho')`: the orthonormal DCT-III,
inverse of the orthonormal DCT-II. -/
def idct (y : List ℝ) : List ℝ :=
  (List.range y.length).map fun n =>
    ∑ k ∈ Finset.range y.length,
      idctScale y.length k * y.getD k 0 * Real.cos (dctAngle y.length k n)

theorem mapRange_getD {α : Type} (f : ℕ → α) (N n : ℕ) (d : α) (h : n < N) :
    ((List.range N).map f).getD n d = f n := by
  rw [List.getD_eq_getElem?_getD, List.getElem?_map, List.getElem?_range h]
  rfl

theorem getD_set_self {α : Type} (l : List α) (n : ℕ) (a d : α) (h : n < l.length) :
    (l.set n a).getD n d = a := by
  rw [List.getD_eq_getElem?_getD, List.getElem?_set_self]
  · rfl
  · exact h

/-- The orthonormal DCT-II recovers coefficient 5 written by the orthonormal
DCT-III: the transform pair used by the DCT strategy is inverse at the target
coefficient. -/
theorem dctCoef_idct (y : List ℝ) (hN : 10 ≤ y.length) :
    dctCoef (idct y) 5 = y.getD 5 0 := by
  have hlen : (idct y).length = y.length := by simp [idct]
  rw [dctCoef, hlen]
  have hin : ∀ n ∈ Finset.range y.length,
      (idct y).getD n 0 * Real.cos (dctAngle y.length 5 n)
        = ∑ k ∈ Finset.range y.length, idctScale y.length k * y.getD k 0
            * (Real.cos (dctAngle y.length k n) * Real.cos (dctAngle y.length 5 n)) := by
    intro n hn
    rw [idct, mapRange_getD _ y.length n 0 (Finset.mem_range.mp hn), Finset.sum_mul]
    exact Finset.sum_congr rfl (fun k _ => by ring)
  rw [Finset.sum_congr rfl hin, Finset.sum_comm]
  have hout : ∀ k ∈ Finset.range y.length,
      (∑ n ∈ Finset.range y.length, idctScale y.length k * y.getD k 0
        * (Real.cos (dctAngle y.length k n) * Real.cos (dctAngle y.length 5 n)))
      = idctScale y.length k * y.getD k 0 * (if k = 5 then (y.length : ℝ) / 2 else 0) := by
    intro k hk
    rw [← Finset.mul_sum, dct_orth y.length k hN (Finset.mem_range.mp hk)]
  rw [Finset.sum_congr rfl hout, Finset.sum_eq_single 5]
  · rw [if_pos rfl, dctScale, idctScale, if_neg (by norm_num), if_neg (by norm_num)]
    have hNpos : (0 : ℝ) < (y.length : ℝ) := by
      have : 0 < y.length := by omega
      exact_mod_cast this
    have hs : Real.sqrt (1 / (2 * (y.length : ℝ))) * Real.sqrt (2 / (y.length : ℝ))
        = 1 / (y.length : ℝ) := by
      rw [← Real.sqrt_mul (by positivity)]
      have he : 1 / (2 * (y.length : ℝ)) * (2 / (y.length : ℝ)) = (1 / (y.length : ℝ)) ^ 2 := by
        field_simp
        ring
      rw [he, Real.sqrt_sq (by positivity)]
    have hr : 2 * Real.sqrt (1 / (2 * (y.length : ℝ)))
          * (Real.sqrt (2 / (y.length : ℝ)) * y.getD 5 0 * ((y.length : ℝ) / 2))
        = (Real.sqrt (1 / (2 * (y.length : ℝ))) * Real.sqrt (2 / (y.length : ℝ)))
          * (y.getD 5 0 * (y.length : ℝ)) := by ring
    rw [hr, hs]
    field_simp
  · intro k _ hk5
    rw [if_neg hk5]
    ring
  · intro h5
    exact absurd (Finset.mem_range.mpr (by omega)) h5

/-- One rewritten block of `DCTSteganographyFloat32.embed`: the orthonormal DCT
of the block with the coefficient at `target_coef` overwritten by
`bit1_value` (bit 1) or `bit0_value` (bit 0), pushed back through the inverse
transform. -/
def dctModifyBlock (block : List ℝ) (b : Bool) : List ℝ :=
  idct ((dctList block).set target_coef (if b then dct_bit1_value else dct_bit0_value))

/-- The block-rewriting loop of `embed`: framed bit `i` is embedded into block
`i` (blocks are consecutive, non-overlapping, `block_size` samples); all
samples beyond the last framed bit's block are carried over untouched. -/
def embedBlocks : List ℝ → List Bool → List ℝ
  | ch, [] => ch
  | ch, b :: bs => dctModifyBlock (ch.take block_size) b ++ embedBlocks (ch.drop block_size) bs

/-- `DCTSteganographyFloat32.embed` on the sample channel: frames the message
with the end marker, checks capacity (`num_blocks = len(channel) // block_size`)
before any sample is written — the error case returns with the caller's
channel unmodified — and then embeds one framed bit per block into a copy. -/
def dct_embed (ch : List ℝ) (msg : List ℕ) : Except StegoError (List ℝ) :=
  let binary_message := frame msg
  let num_blocks := ch.length / block_size
  if binary_message.length > num_blocks then Except.error StegoError.capacityError
  else Except.ok (embedBlocks ch binary_message)

/-- The per-block candidate bit sequence of `DCTSteganographyFloat32.extract`:
bit `i` is `'1'` iff the target DCT coefficient of block `i` strictly exceeds
the threshold `0.0`. -/
def dctBits (ch : List ℝ) : List Bool :=
  (List.range (ch.length / block_size)).map fun i =>
    decide (dct_threshold < dctCoef ((ch.drop (i * block_size)).take block_size) target_coef)

/-- `DCTSteganographyFloat32.extract`: streams the per-block bits through the
marker scan; if the resulting (marker-stripped) bit string is empty the
sentinel `"Не вдалося вилучити повідомлення"` is returned, otherwise the bits
are decoded to text. -/
def dct_extract (ch : List ℝ) : List ℕ :=
  if (runScan (dctBits ch)).1.length = 0 then failMessage
  else binary_to_text (runScan (dctBits ch)).1

theorem dctModifyBlock_length (block : List ℝ) (b : Bool) :
    (dctModifyBlock block b).length = block.length := by
  simp [dctModifyBlock, idct, dctList]

theorem embedBlocks_length : ∀ (bs : List Bool) (ch : List ℝ),
    bs.length * block_size ≤ ch.length → (embedBlocks ch bs).length = ch.length := by
  intro bs
  induction bs with
  | nil => intro ch _; rfl
  | cons b bs ih =>
    intro ch hcap
    simp only [List.length_cons, block_size] at hcap
    have ihh := ih (ch.drop block_size) (by simp [block_size]; omega)
    simp only [embedBlocks, List.length_append, dctModifyBlock_length,
      List.length_take, List.length_drop, block_size] at *
    omega

theorem embedBlocks_take_block (ch : List ℝ) (b : Bool)
    (h1 : block_size ≤ ch.length) :
    (dctModifyBlock (ch.take block_size) b).length = block_size := by
  rw [dctModifyBlock_length]
  simp
  omega

theorem embedBlocks_drop : ∀ (bs : List Bool) (ch : List ℝ),
    bs.length * block_size ≤ ch.length →
    (embedBlocks ch bs).drop (bs.length * block_size) = ch.drop (bs.length * block_size) := by
  intro bs
  induction bs with
  | nil => intro ch _; rfl
  | cons b bs ih =>
    intro ch hcap
    simp only [List.length_cons] at hcap ⊢
    have h1 : block_size ≤ ch.length := by
      simp only [block_size] at hcap ⊢; omega
    have hblock := embedBlocks_take_block ch b h1
    have hsplit : (bs.length + 1) * block_size = block_size + bs.length * block_size := by
      rw [Nat.add_mul]; omega
    have e1 : (embedBlocks ch (b :: bs)).drop ((bs.length + 1) * block_size)
        = (embedBlocks (ch.drop block_size) bs).drop (bs.length * block_size) := by
      simp only [embedBlocks]
      rw [hsplit, ← List.drop_drop, List.drop_left' hblock]
    have e2 : ch.drop ((bs.length + 1) * block_size)
        = (ch.drop block_size).drop (bs.length * block_size) := by
      rw [hsplit, ← List.drop_drop]
    rw [e1, e2, ih (ch.drop block_size) (by simp only [block_size, List.length_drop] at hcap ⊢; omega)]

theorem embedBlocks_block : ∀ (bs : List Bool) (ch : List ℝ) (i : ℕ),
    bs.length * block_size ≤ ch.length → i < bs.length →
    ((embedBlocks ch bs).drop (i * block_size)).take block_size
      = dctModifyBlock ((ch.drop (i * block_size)).take block_size) (bs.getD i false) := by
  intro bs
  induction bs with
  | nil => intro ch i _ hi; simp at hi
  | cons b bs ih =>
    intro ch i hcap hi
    simp only [List.length_cons] at hcap
    have h1 : block_size ≤ ch.length := by
      simp only [block_size] at hcap ⊢; omega
    have hblock := embedBlocks_take_block ch b h1
    cases i with
    | zero =>
      simp only [Nat.zero_mul, List.drop_zero, List.getD_cons_zero, embedBlocks]
      rw [List.take_left' hblock]
    | succ i =>
      have hsucc : (i + 1) * block_size = block_size + i * block_size := by
        rw [Nat.add_mul]; omega
      have e1 : (embedBlocks ch (b :: bs)).drop ((i + 1) * block_size)
          = (embedBlocks (ch.drop block_size) bs).drop (i * block_size) := by
        simp only [embedBlocks]
        rw [hsucc, ← List.drop_drop, List.drop_left' hblock]
      have e2 : ch.drop ((i + 1) * block_size) = (ch.drop block_size).drop (i * block_size) := by
        rw [hsucc, ← List.drop_drop]
      rw [List.getD_cons_succ, e1, e2,
        ih (ch.drop block_size) i (by simp only [block_size, List.length_drop] at hcap ⊢; omega)
          (by simp only [List.length_cons] at hi; omega)]

theorem dctBits_length (ch : List ℝ) : (dctBits ch).length = ch.length / block_size := by
  simp [dctBits]

/-- The DCT coefficient read back by `extract` from a block written by `embed`
is exactly the forced value. -/
theorem dctCoef_modifyBlock (block : List ℝ) (b : Bool) (hlen : block.length = block_size) :
    dctCoef (dctModifyBlock block b) target_coef
      = if b then dct_bit1_value else dct_bit0_value := by
  unfold dctModifyBlock target_coef
  have hlen2 : ((dctList block).set 5 (if b then dct_bit1_value else dct_bit0_value)).length
      = block_size := by
    simp [dctList, hlen]
  rw [dctCoef_idct ((dctList block).set 5 (if b then dct_bit1_value else dct_bit0_value))
    (by rw [hlen2, block_size]; norm_num)]
  apply getD_set_self
  simp only [dctList, List.length_map, List.length_range, hlen, block_size]
  norm_num

theorem block_full_length (ch : List ℝ) (i L : ℕ) (hi : i < L)
    (hcap : L * block_size ≤ ch.length) :
    ((ch.drop (i * block_size)).take block_size).length = block_size := by
  simp only [List.length_take, List.length_drop]
  have : (i + 1) * block_size ≤ L * block_size := Nat.mul_le_mul_right _ (by omega)
  simp only [block_size, Nat.add_mul] at *
  omega

/-- The leading per-block bits recovered by `extract` from an embedded channel
are exactly the framed message bits. -/
theorem dctBits_take (ch : List ℝ) (bs : List Bool)
    (hcap : bs.length ≤ ch.length / block_size) :
    (dctBits (embedBlocks ch bs)).take bs.length = bs := by
  have hbs : (0 : ℕ) < block_size := by norm_num [block_size]
  have hcap2 : bs.length * block_size ≤ ch.length := (Nat.le_div_iff_mul_le hbs).mp hcap
  have hlen : (embedBlocks ch bs).length = ch.length := embedBlocks_length bs ch hcap2
  unfold dctBits
  rw [hlen, ← List.map_take, List.take_range, Nat.min_eq_left hcap]
  apply List.ext_getElem
  · simp
  · intro i h1 h2
    have hi : i < bs.length := by simpa using h2
    rw [List.getElem_map, List.getElem_range]
    have hblock := embedBlocks_block bs ch i hcap2 hi
    rw [hblock, dctCoef_modifyBlock _ _ (block_full_length ch i bs.length hi hcap2)]
    rw [List.getD_eq_getElem bs false hi]
    cases hb : bs[i] with
    | true =>
      rw [if_pos rfl]
      simp only [dct_threshold, dct_bit1_value]
      norm_num
    | false =>
      rw [if_neg (by simp)]
      simp only [dct_threshold, dct_bit0_value]
      norm_num

/-- Round trip of the coefficient-forcing (DCT) strategy: when the framed
message fits the capacity, every code point is byte-sized, the message is
nonempty, and the framed bits are marker-clean, extraction recovers the
embedded message exactly. -/
theorem dct_round_trip_core (ch : List ℝ) (msg : List ℕ) (out : List ℝ)
    (hcp : ∀ c ∈ msg, c < 256) (hne : msg ≠ [])
    (hclean : MarkerClean (frame msg))
    (hok : dct_embed ch msg = Except.ok out) :
    dct_extract out = msg := by
  simp only [dct_embed] at hok
  by_cases hcap : (frame msg).length > ch.length / block_size
  · rw [if_pos hcap] at hok
    cases hok
  · rw [if_neg hcap] at hok
    injection hok with hout
    subst hout
    push_neg at hcap
    have htake := dctBits_take ch (frame msg) hcap
    have hsplit : dctBits (embedBlocks ch (frame msg))
        = frame msg ++ (dctBits (embedBlocks ch (frame msg))).drop (frame msg).length := by
      calc dctBits (embedBlocks ch (frame msg))
          = (dctBits (embedBlocks ch (frame msg))).take (frame msg).length
            ++ (dctBits (embedBlocks ch (frame msg))).drop (frame msg).length :=
            (List.take_append_drop _ _).symm
        _ = frame msg ++ (dctBits (embedBlocks ch (frame msg))).drop (frame msg).length := by
            rw [htake]
    have hscan : runScan (frame msg
        ++ (dctBits (embedBlocks ch (frame msg))).drop (frame msg).length)
        = (text_to_binary msg, true) :=
      runScan_frame (text_to_binary msg) _ hclean
    unfold dct_extract
    rw [hsplit, hscan]
    have hnz : (text_to_binary msg).length ≠ 0 := by
      have h8 := text_to_binary_length_ge msg
      have : msg.length ≠ 0 := fun h => hne (List.eq_nil_of_length_eq_zero h)
      omega
    rw [if_neg hnz]
    exact (codec_round_trip msg hcp).1

/-- C8. Frame property of the coefficient-forcing (DCT) strategy: a successful
embed leaves every sample at or beyond `framed_bit_count * block_size`
(including the partial tail block) exactly equal to the input channel, and
preserves the channel length; only the first `framed_bit_count` blocks are
rewritten. -/
theorem dct_embed_tail_untouched (ch : List ℝ) (msg : List ℕ) (out : List ℝ) (j : ℕ)
    (hok : dct_embed ch msg = Except.ok out)
    (hj : (frame msg).length * block_size ≤ j) :
    out.getD j 0 = ch.getD j 0 ∧ out.length = ch.length := by
  simp only [dct_embed] at hok
  by_cases hcap : (frame msg).length > ch.length / block_size
  · rw [if_pos hcap] at hok
    cases hok
  · rw [if_neg hcap] at hok
    injection hok with hout
    subst hout
    push_neg at hcap
    have hbs : (0 : ℕ) < block_size := by norm_num [block_size]
    have hcap2 : (frame msg).length * block_size ≤ ch.length :=
      (Nat.le_div_iff_mul_le hbs).mp hcap
    refine ⟨?_, embedBlocks_length _ ch hcap2⟩
    have hdrop := embedBlocks_drop (frame msg) ch hcap2
    have hj2 : j = (frame msg).length * block_size + (j - (frame msg).length * block_size) := by
      omega
    rw [List.getD_eq_getElem?_getD, List.getD_eq_getElem?_getD, hj2,
      ← List.getElem?_drop, ← List.getElem?_drop, hdrop]

/-- Witness for C8: embedding the empty message (16 framed marker bits, 16
blocks) into a 16389-sample zero channel leaves the tail sample at index 16388
untouched. -/
theorem dct_embed_tail_untouched_witness :
    dct_embed (List.replicate 16389 (0 : ℝ)) []
        = Except.ok (embedBlocks (List.replicate 16389 (0 : ℝ)) (frame [])) ∧
      (frame []).length * block_size ≤ 16388 ∧
      (embedBlocks (List.replicate 16389 (0 : ℝ)) (frame [])).getD 16388 0
          = (List.replicate 16389 (0 : ℝ)).getD 16388 0 ∧
      (embedBlocks (List.replicate 16389 (0 : ℝ)) (frame [])).length
          = (List.replicate 16389 (0 : ℝ)).length := by
  have hok : dct_embed (List.replicate 16389 (0 : ℝ)) []
      = Except.ok (embedBlocks (List.replicate 16389 (0 : ℝ)) (frame [])) := by
    simp only [dct_embed, List.length_replicate]
    rw [if_neg]
    rw [show (frame []).length = 16 from by decide]
    norm_num [block_size]
  have hj : (frame []).length * block_size ≤ 16388 := by
    rw [show (frame []).length = 16 from by decide]
    norm_num [block_size]
  have h := dct_embed_tail_untouched (List.replicate 16389 (0 : ℝ)) []
    (embedBlocks (List.replicate 16389 (0 : ℝ)) (frame [])) 16388 hok hj
  exact ⟨hok, hj, h.1, h.2⟩

/- ### DWTSteganographyFloat32 -/

/-- `self.step = 100` of the DWT strategy. -/
def dwt_step : ℕ := 100

/-- `self.bit1_frac = 0.75`. -/
def bit1_frac : ℝ := 0.75

/-- `self.bit0_frac = 0.25`. -/
def bit0_frac : ℝ := 0.25

/-- Single-level Haar (`'db1'`) analysis as performed by `pywt.dwt`:
consecutive sample pairs map to approximation `(x0+x1)/sqrt 2` and detail
`(x0-x1)/sqrt 2`; an odd trailing sample is paired with itself (symmetric
signal extension). -/
def haarDwt : List ℝ → List ℝ × List ℝ
  | [] => ([], [])
  | [x] => ([Real.sqrt 2 * x], [0])
  | x :: y :: rest =>
      (((x + y) / Real.sqrt 2) :: (haarDwt rest).1,
       ((x - y) / Real.sqrt 2) :: (haarDwt rest).2)

/-- Single-level Haar synthesis (`pywt.idwt`), inverse of `haarDwt` on
equal-length coefficient arrays. -/
def haarIdwt : List ℝ → List ℝ → List ℝ
  | a :: as, d :: ds =>
      ((a + d) / Real.sqrt 2) :: ((a - d) / Real.sqrt 2) :: haarIdwt as ds
  | _, _ => []

/-- `pywt.wavedec(x, 'db1', level=n)`: `[cA_n, cD_n, ..., cD_1]`. -/
def wavedec : ℕ → List ℝ → List (List ℝ)
  | 0, x => [x]
  | n + 1, x => wavedec n (haarDwt x).1 ++ [(haarDwt x).2]

/-- The reconstruction loop of `pywt.waverec`: repeatedly `idwt` the running
approximation with the next detail subband, trimming a linger approximation
sample when the lengths disagree by one. -/
def waverecAux : List ℝ → List (List ℝ) → List ℝ
  | a, [] => a
  | a, d :: ds =>
      waverecAux (haarIdwt (if a.length = d.length + 1 then a.dropLast else a) d) ds

/-- `pywt.waverec(coeffs, 'db1')`. -/
def waverec : List (List ℝ) → List ℝ
  | [] => []
  | a :: ds => waverecAux a ds

theorem haar_pair_fst (p q : ℝ) :
    ((p + q) / Real.sqrt 2 + (p - q) / Real.sqrt 2) / Real.sqrt 2 = p := by
  have hne : Real.sqrt 2 ≠ 0 := by positivity
  field_simp

theorem haar_pair_snd (p q : ℝ) :
    ((p + q) / Real.sqrt 2 - (p - q) / Real.sqrt 2) / Real.sqrt 2 = q := by
  have hne : Real.sqrt 2 ≠ 0 := by positivity
  field_simp

theorem haarDwt_length : ∀ (x : List ℝ),
    (haarDwt x).1.length = (x.length + 1) / 2 ∧ (haarDwt x).2.length = (x.length + 1) / 2
  | [] => by simp [haarDwt]
  | [x] => by simp [haarDwt]
  | x :: y :: rest => by
    have ih := haarDwt_length rest
    simp only [haarDwt, List.length_cons]
    omega

theorem haarIdwt_length : ∀ (a d : List ℝ), a.length = d.length →
    (haarIdwt a d).length = 2 * a.length
  | [], [] => by simp [haarIdwt]
  | [], _ :: _ => by intro h; simp at h
  | _ :: _, [] => by intro h; simp at h
  | a :: as, d :: ds => by
    intro h
    have ih := haarIdwt_length as ds (by simpa using h)
    simp only [haarIdwt, List.length_cons]
    omega

/-- Haar perfect reconstruction: synthesis undoes analysis on even-length
signals. -/
theorem haarIdwt_haarDwt : ∀ (x : List ℝ), x.length % 2 = 0 →
    haarIdwt (haarDwt x).1 (haarDwt x).2 = x
  | [] => by intro _; simp [haarDwt, haarIdwt]
  | [x] => by intro h; simp at h
  | x :: y :: rest => by
    intro h
    have ih := haarIdwt_haarDwt rest (by simp only [List.length_cons] at h; omega)
    simp only [haarDwt, haarIdwt, ih, haar_pair_fst, haar_pair_snd]

/-- Haar analysis undoes synthesis on equal-length coefficient arrays: the
re-decomposition performed by `extract` recovers exactly the coefficients the
embedder reconstructed from. -/
theorem haarDwt_haarIdwt : ∀ (a d : List ℝ), a.length = d.length →
    haarDwt (haarIdwt a d) = (a, d)
  | [], [] => by intro _; simp [haarIdwt, haarDwt]
  | [], _ :: _ => by intro h; simp at h
  | _ :: _, [] => by intro h; simp at h
  | a :: as, d :: ds => by
    intro h
    have ih := haarDwt_haarIdwt as ds (by simpa using h)
    simp only [haarIdwt, haarDwt, ih, haar_pair_fst, haar_pair_snd]

theorem wavedec_five (x : List ℝ) : wavedec 5 x =
    [(haarDwt (haarDwt (haarDwt (haarDwt (haarDwt x).1).1).1).1).1,
     (haarDwt (haarDwt (haarDwt (haarDwt (haarDwt x).1).1).1).1).2,
     (haarDwt (haarDwt (haarDwt (haarDwt x).1).1).1).2,
     (haarDwt (haarDwt (haarDwt x).1).1).2,
     (haarDwt (haarDwt x).1).2,
     (haarDwt x).2] := rfl

theorem waverecAux_cons (a d : List ℝ) (ds : List (List ℝ)) :
    waverecAux a (d :: ds)
      = waverecAux (haarIdwt (if a.length = d.length + 1 then a.dropLast else a) d) ds := rfl

/-- Reconstruction from the level-5 Haar decomposition with subband 2 (`cD4`)
replaced by an equal-length coefficient array: the channel length is restored
and re-decomposition recovers exactly the modified coefficient list. -/
theorem dwt_reconstruct (ch newD4 : List ℝ) (hdvd : 32 ∣ ch.length)
    (hlen : newD4.length = ((wavedec 5 ch).getD 2 []).length) :
    (waverec ((wavedec 5 ch).set 2 newD4)).length = ch.length ∧
    wavedec 5 (waverec ((wavedec 5 ch).set 2 newD4)) = (wavedec 5 ch).set 2 newD4 := by
  obtain ⟨m, hm⟩ := hdvd
  set a1 := (haarDwt ch).1 with ha1
  set d1 := (haarDwt ch).2 with hd1
  set a2 := (haarDwt a1).1 with ha2
  set d2 := (haarDwt a1).2 with hd2
  set a3 := (haarDwt a2).1 with ha3
  set d3 := (haarDwt a2).2 with hd3
  set a4 := (haarDwt a3).1 with ha4
  set d4 := (haarDwt a3).2 with hd4
  set a5 := (haarDwt a4).1 with ha5
  set d5 := (haarDwt a4).2 with hd5
  have hw : wavedec 5 ch = [a5, d5, d4, d3, d2, d1] := wavedec_five ch
  have hla1 : a1.length = 16 * m := by rw [ha1, (haarDwt_length ch).1, hm]; omega
  have hld1 : d1.length = 16 * m := by rw [hd1, (haarDwt_length ch).2, hm]; omega
  have hla2 : a2.length = 8 * m := by rw [ha2, (haarDwt_length a1).1, hla1]; omega
  have hld2 : d2.length = 8 * m := by rw [hd2, (haarDwt_length a1).2, hla1]; omega
  have hla3 : a3.length = 4 * m := by rw [ha3, (haarDwt_length a2).1, hla2]; omega
  have hld3 : d3.length = 4 * m := by rw [hd3, (haarDwt_length a2).2, hla2]; omega
  have hla4 : a4.length = 2 * m := by rw [ha4, (haarDwt_length a3).1, hla3]; omega
  have hld4 : d4.length = 2 * m := by rw [hd4, (haarDwt_length a3).2, hla3]; omega
  have hla5 : a5.length = m := by rw [ha5, (haarDwt_length a4).1, hla4]; omega
  have hld5 : d5.length = m := by rw [hd5, (haarDwt_length a4).2, hla4]; omega
  have hsub : (wavedec 5 ch).getD 2 [] = d4 := by rw [hw]; rfl
  have hlnew : newD4.length = 2 * m := by rw [hlen, hsub, hld4]
  have hset : (wavedec 5 ch).set 2 newD4 = [a5, d5, newD4, d3, d2, d1] := by
    rw [hw]; rfl
  have hk1 : haarIdwt a5 d5 = a4 := by
    rw [ha5, hd5]
    exact haarIdwt_haarDwt a4 (by omega)
  set y3 := haarIdwt a4 newD4 with hy3
  set y2 := haarIdwt y3 d3 with hy2
  set y1 := haarIdwt y2 d2 with hy1
  set y0 := haarIdwt y1 d1 with hy0
  have hly3 : y3.length = 4 * m := by
    rw [hy3, haarIdwt_length a4 newD4 (by omega), hla4]; ring
  have hly2 : y2.length = 8 * m := by
    rw [hy2, haarIdwt_length y3 d3 (by omega), hly3]; ring
  have hly1 : y1.length = 16 * m := by
    rw [hy1, haarIdwt_length y2 d2 (by omega), hly2]; ring
  have hly0 : y0.length = 32 * m := by
    rw [hy0, haarIdwt_length y1 d1 (by omega), hly1]; ring
  have hrec : waverec ((wavedec 5 ch).set 2 newD4) = y0 := by
    rw [hset]
    show waverecAux a5 [d5, newD4, d3, d2, d1] = y0
    rw [waverecAux_cons, if_neg (by omega), hk1,
      waverecAux_cons, if_neg (by omega), ← hy3,
      waverecAux_cons, if_neg (by omega), ← hy2,
      waverecAux_cons, if_neg (by omega), ← hy1,
      waverecAux_cons, if_neg (by omega), ← hy0]
    rfl
  have hg0 : haarDwt y0 = (y1, d1) := by
    rw [hy0]
    exact haarDwt_haarIdwt y1 d1 (by omega)
  have hg1 : haarDwt y1 = (y2, d2) := by
    rw [hy1]
    exact haarDwt_haarIdwt y2 d2 (by omega)
  have hg2 : haarDwt y2 = (y3, d3) := by
    rw [hy2]
    exact haarDwt_haarIdwt y3 d3 (by omega)
  have hg3 : haarDwt y3 = (a4, newD4) := by
    rw [hy3]
    exact haarDwt_haarIdwt a4 newD4 (by omega)
  constructor
  · rw [hrec, hly0, hm]
  · rw [hrec, wavedec_five y0, hg0, hg1, hg2, hg3, hset]

/-- The subband rewrite of `DWTSteganographyFloat32.embed`: position `i * step`
of the target subband (for framed bit `i`) keeps its integer part
(`np.floor`) and gets fractional part `bit1_frac` or `bit0_frac`; all other
coefficients are untouched. -/
def dwtSetFracs (sb : List ℝ) (bs : List Bool) : List ℝ :=
  sb.mapIdx fun j v =>
    if j % dwt_step = 0 ∧ j / dwt_step < bs.length
    then ((Int.floor v : ℤ) : ℝ) + (if bs.getD (j / dwt_step) false then bit1_frac else bit0_frac)
    else v

/-- `DWTSteganographyFloat32.embed` on the sample channel: level-5 `'db1'`
decomposition, subband index 2, capacity `len(subband) // step` checked before
any coefficient is written, fractional-part encoding of the framed bits,
inverse transform, truncation to the original sample count. -/
def dwt_embed (ch : List ℝ) (msg : List ℕ) : Except StegoError (List ℝ) :=
  if (frame msg).length > ((wavedec 5 ch).getD 2 []).length / dwt_step
  then Except.error StegoError.capacityError
  else Except.ok ((waverec ((wavedec 5 ch).set 2
      (dwtSetFracs ((wavedec 5 ch).getD 2 []) (frame msg)))).take ch.length)

/-- The fractional part `value - np.floor(value)` read by `extract`. -/
def fracPart (x : ℝ) : ℝ := x - ((Int.floor x : ℤ) : ℝ)

/-- The per-coefficient candidate bit sequence of
`DWTSteganographyFloat32.extract`: bit `i` is `'1'` iff the fractional part of
subband coefficient `i * step` is at least 0.5. -/
def dwtBits (ch : List ℝ) : List Bool :=
  (List.range (((wavedec 5 ch).getD 2 []).length / dwt_step)).map fun i =>
    decide ((0.5 : ℝ) ≤ fracPart (((wavedec 5 ch).getD 2 []).getD (i * dwt_step) 0))

/-- `DWTSteganographyFloat32.extract`: decomposes again, streams the subband
bits through the marker scan, returns the sentinel when the stripped bit
string is empty and the decoded text otherwise. -/
def dwt_extract (ch : List ℝ) : List ℕ :=
  if (runScan (dwtBits ch)).1.length = 0 then failMessage
  else binary_to_text (runScan (dwtBits ch)).1

theorem dwtSetFracs_length (sb : List ℝ) (bs : List Bool) :
    (dwtSetFracs sb bs).length = sb.length := by
  simp [dwtSetFracs]

theorem fracPart_floor_add (v c : ℝ) (h0 : 0 ≤ c) (h1 : c < 1) :
    fracPart (((Int.floor v : ℤ) : ℝ) + c) = c := by
  unfold fracPart
  rw [Int.floor_int_add]
  have : ⌊c⌋ = 0 := Int.floor_eq_zero_iff.mpr ⟨h0, h1⟩
  rw [this]
  push_cast
  ring

theorem mapIdx_getD (f : ℕ → ℝ → ℝ) (l : List ℝ) (j : ℕ) (d : ℝ) (h : j < l.length) :
    (l.mapIdx f).getD j d = f j (l.getD j d) := by
  rw [List.getD_eq_getElem l d h,
    List.getD_eq_getElem (l.mapIdx f) d (by simpa using h)]
  simp [List.getElem_mapIdx]

/-- The leading subband bits recovered by `extract` from an embedded channel
are exactly the framed message bits. -/
theorem dwtBits_take (ch : List ℝ) (bs : List Bool) (hdvd : 32 ∣ ch.length)
    (hcap : bs.length ≤ ((wavedec 5 ch).getD 2 []).length / dwt_step) :
    (dwtBits ((waverec ((wavedec 5 ch).set 2
        (dwtSetFracs ((wavedec 5 ch).getD 2 []) bs))).take ch.length)).take bs.length
      = bs := by
  have hrec := dwt_reconstruct ch (dwtSetFracs ((wavedec 5 ch).getD 2 []) bs) hdvd
    (dwtSetFracs_length _ _)
  have htrunc : (waverec ((wavedec 5 ch).set 2
      (dwtSetFracs ((wavedec 5 ch).getD 2 []) bs))).take ch.length
      = waverec ((wavedec 5 ch).set 2 (dwtSetFracs ((wavedec 5 ch).getD 2 []) bs)) := by
    rw [List.take_of_length_le (by rw [hrec.1])]
  rw [htrunc]
  have hsub : (wavedec 5 (waverec ((wavedec 5 ch).set 2
      (dwtSetFracs ((wavedec 5 ch).getD 2 []) bs)))).getD 2 []
      = dwtSetFracs ((wavedec 5 ch).getD 2 []) bs := by
    rw [hrec.2]
    have h2 : 2 < ((wavedec 5 ch)).length := by rw [wavedec_five]; norm_num
    rw [List.getD_eq_getElem _ _ (by simpa using h2), List.getElem_set_self]
  unfold dwtBits
  rw [hsub, dwtSetFracs_length]
  rw [← List.map_take, List.take_range, Nat.min_eq_left hcap]
  apply List.ext_getElem
  · simp
  · intro i h1 h2
    have hi : i < bs.length := by simpa using h2
    rw [List.getElem_map, List.getElem_range]
    have hstep : (0 : ℕ) < dwt_step := by norm_num [dwt_step]
    have hlt : i * dwt_step < ((wavedec 5 ch).getD 2 []).length := by
      have hle : bs.length * dwt_step ≤ ((wavedec 5 ch).getD 2 []).length :=
        (Nat.le_div_iff_mul_le hstep).mp hcap
      have : (i + 1) * dwt_step ≤ bs.length * dwt_step :=
        Nat.mul_le_mul_right _ (by omega)
      simp only [Nat.add_mul] at this
      omega
    have hval : (dwtSetFracs ((wavedec 5 ch).getD 2 []) bs).getD (i * dwt_step) 0
        = ((Int.floor (((wavedec 5 ch).getD 2 []).getD (i * dwt_step) 0) : ℤ) : ℝ)
          + (if bs.getD i false then bit1_frac else bit0_frac) := by
      simp only [dwtSetFracs]
      rw [mapIdx_getD _ _ _ _ hlt,
        if_pos ⟨by simp, by rw [Nat.mul_div_cancel i hstep]; exact hi⟩,
        Nat.mul_div_cancel i hstep]
    simp only [hval, List.getD_eq_getElem bs false hi]
    cases hb : bs[i] with
    | true =>
      rw [if_pos rfl, fracPart_floor_add _ _ (by norm_num [bit1_frac]) (by norm_num [bit1_frac]),
        decide_eq_true_eq]
      norm_num [bit1_frac]
    | false =>
      rw [if_neg (by simp), fracPart_floor_add _ _ (by norm_num [bit0_frac]) (by norm_num [bit0_frac]),
        decide_eq_false_iff_not]
      norm_num [bit0_frac]

/-- Round trip of the wavelet-fraction (DWT) strategy on channels whose length
is divisible by 2^5: when the framed message fits the subband capacity, every
code point is byte-sized, the message is nonempty, and the framed bits are
marker-clean, extraction recovers the embedded message exactly. -/
theorem dwt_round_trip_core (ch : List ℝ) (msg : List ℕ) (out : List ℝ)
    (hdvd : 32 ∣ ch.length)
    (hcp : ∀ c ∈ msg, c < 256) (hne : msg ≠ [])
    (hclean : MarkerClean (frame msg))
    (hok : dwt_embed ch msg = Except.ok out) :
    dwt_extract out = msg := by
  simp only [dwt_embed] at hok
  by_cases hcap : (frame msg).length > ((wavedec 5 ch).getD 2 []).length / dwt_step
  · rw [if_pos hcap] at hok
    cases hok
  · rw [if_neg hcap] at hok
    injection hok with hout
    subst hout
    push_neg at hcap
    have htake := dwtBits_take ch (frame msg) hdvd hcap
    set out := (waverec ((wavedec 5 ch).set 2
        (dwtSetFracs ((wavedec 5 ch).getD 2 []) (frame msg)))).take ch.length with hodef
    have hsplit : dwtBits out = frame msg ++ (dwtBits out).drop (frame msg).length := by
      calc dwtBits out
          = (dwtBits out).take (frame msg).length ++ (dwtBits out).drop (frame msg).length :=
            (List.take_append_drop _ _).symm
        _ = frame msg ++ (dwtBits out).drop (frame msg).length := by rw [htake]
    have hscan : runScan (frame msg ++ (dwtBits out).drop (frame msg).length)
        = (text_to_binary msg, true) :=
      runScan_frame (text_to_binary msg) _ hclean
    unfold dwt_extract
    rw [hsplit, hscan]
    have hnz : (text_to_binary msg).length ≠ 0 := by
      have h8 := text_to_binary_length_ge msg
      have : msg.length ≠ 0 := fun h => hne (List.eq_nil_of_length_eq_zero h)
      omega
    rw [if_neg hnz]
    exact (codec_round_trip msg hcp).1

/-- The target subband (`coeffs[2]`, i.e. `cD4`) of a channel whose length is
divisible by 32 has exactly `length / 16` coefficients. -/
theorem dwt_subband_length (ch : List ℝ) (hdvd : 32 ∣ ch.length) :
    ((wavedec 5 ch).getD 2 []).length = ch.length / 16 := by
  obtain ⟨m, hm⟩ := hdvd
  have h1 : ((haarDwt ch).1).length = 16 * m := by
    rw [(haarDwt_length ch).1, hm]; omega
  have h2 : ((haarDwt (haarDwt ch).1).1).length = 8 * m := by
    rw [(haarDwt_length _).1, h1]; omega
  have h3 : ((haarDwt (haarDwt (haarDwt ch).1).1).1).length = 4 * m := by
    rw [(haarDwt_length _).1, h2]; omega
  have hsub : (wavedec 5 ch).getD 2 []
      = (haarDwt (haarDwt (haarDwt (haarDwt ch).1).1).1).2 := by
    rw [wavedec_five]; rfl
  rw [hsub, (haarDwt_length _).2, h3, hm]
  omega

end

/- ### DFTSteganographyFloat32 -/

noncomputable section

/-- `self.start_idx = 2000`. -/
def start_idx : ℕ := 2000

/-- `self.step = 2` of the DFT strategy. -/
def dft_step : ℕ := 2

/-- `self.bit1_value = 0.01` of the DFT strategy. -/
def dft_bit1_value : ℝ := 0.01

/-- `self.bit0_value = 0.001` of the DFT strategy. -/
def dft_bit0_value : ℝ := 0.001

/-- `self.threshold = 0.005`. -/
def dft_threshold : ℝ := 0.005

/-- Maximum of a list of reals against 0 (`np.max` over a nonnegative
array). -/
def maxList (l : List ℝ) : ℝ := l.foldr max 0

/-- Peak absolute amplitude `np.max(np.abs(channel))` (0 for an empty
channel). -/
def peakAbs (ch : List ℝ) : ℝ := maxList (ch.map (fun s => |s|))

/-- The normalization step of `embed`:
`channel_1 /= np.max(np.abs(channel_1))` — a plain division with no guard
against an all-zero channel. -/
def dftNormalize (ch : List ℝ) : List ℝ := ch.map (fun s => s / peakAbs ch)

/-- `scipy.fft.fft` of a complex vector at frequency `k`:
`X_k = sum_n x_n * exp(-2*pi*I*k*n/N)`. -/
def dftC (x : List ℂ) (k : ℕ) : ℂ :=
  ∑ n ∈ Finset.range x.length,
    x.getD n 0 * Complex.exp (-(2 * Real.pi * Complex.I * k * n) / x.length)

/-- `scipy.fft.fft` of a real channel. -/
def dft (x : List ℝ) (k : ℕ) : ℂ := dftC (x.map Complex.ofReal) k

/-- `scipy.fft.ifft` of a spectrum given as a function on bin indices:
`x_n = (1/N) * sum_k X_k * exp(2*pi*I*k*n/N)`. -/
def ifftC (X : ℕ → ℂ) (N : ℕ) : List ℂ :=
  (List.range N).map fun (n : ℕ) =>
    (∑ k ∈ Finset.range N, X k * Complex.exp (2 * Real.pi * Complex.I * k * n / N)) / N

/-- `np.max(np.abs(fft(channel)))`. -/
def specMax (x : List ℝ) : ℝ :=
  maxList ((List.range x.length).map fun k => Complex.abs (dft x k))

/-- The spectral value forced at the bin of framed bit `i`:
`min(bit_amplitude, max_amp * 0.1) * exp(1j * phase)` with the phase of the
original bin preserved. -/
def modVal (X : ℕ → ℂ) (bits : List Bool) (mx : ℝ) (i : ℕ) : ℂ :=
  (min (if bits.getD i false then dft_bit1_value else dft_bit0_value) (mx * 0.1) : ℝ)
    * Complex.exp ((Complex.arg (X (start_idx + i * dft_step)) : ℝ) * Complex.I)

/-- The spectrum after the embedding loop: bin `start_idx + i*step` carries
the forced value for framed bit `i`, its negative-frequency mirror `N - idx`
carries the conjugate (`channel_dft[-idx] = conj(channel_dft[idx])`), and all
other bins are unchanged.  Under the capacity precondition the bins and
mirrors are disjoint, so this function is the final state of the array. -/
def embedSpectrum (X : ℕ → ℂ) (N : ℕ) (bits : List Bool) (mx : ℝ) : ℕ → ℂ := fun k =>
  if start_idx ≤ k ∧ (k - start_idx) % dft_step = 0 ∧ (k - start_idx) / dft_step < bits.length
  then modVal X bits mx ((k - start_idx) / dft_step)
  else if start_idx ≤ N - k ∧ (N - k - start_idx) % dft_step = 0
      ∧ (N - k - start_idx) / dft_step < bits.length ∧ 1 ≤ k ∧ k ≤ N - 1
  then starRingEnd ℂ (modVal X bits mx ((N - k - start_idx) / dft_step))
  else X k

/-- The channel produced by `np.real(ifft(channel_dft))` in `embed`, before
the conditional re-normalization. -/
def dftPreNorm (ch : List ℝ) (msg : List ℕ) : List ℝ :=
  (ifftC (embedSpectrum (fun k => dft (dftNormalize ch) k) ch.length (frame msg)
    (specMax (dftNormalize ch))) ch.length).map Complex.re

/-- `DFTSteganographyFloat32.embed` on the sample channel: normalizes by the
peak, frames the message, checks capacity
`max_bits = (len(channel)//2 - start_idx) // step` before any spectral write,
embeds the framed bits as spectral magnitudes with mirrored conjugates,
inverse-transforms, takes the real part, and re-normalizes only if the result
exceeds 1.0 in magnitude. -/
def dftOut (ch : List ℝ) (msg : List ℕ) : List ℝ :=
  if 1 < peakAbs (dftPreNorm ch msg)
  then (dftPreNorm ch msg).map (fun s => s / peakAbs (dftPreNorm ch msg))
  else dftPreNorm ch msg

/-- `DFTSteganographyFloat32.embed`: the capacity check
`max_bits = (len(channel)//2 - start_idx) // step` happens before any spectral
write; on success the re-normalized reconstruction `dftOut` is returned. -/
def dft_embed (ch : List ℝ) (msg : List ℕ) : Except StegoError (List ℝ) :=
  if (frame msg).length > (ch.length / 2 - start_idx) / dft_step
  then Except.error StegoError.capacityError
  else Except.ok (dftOut ch msg)

/-- The per-bin candidate bit sequence of `DFTSteganographyFloat32.extract`:
bit `i` is `'1'` iff the magnitude of bin `start_idx + i*step` strictly
exceeds `threshold`. -/
def dftBits (ch : List ℝ) : List Bool :=
  (List.range ((ch.length / 2 - start_idx) / dft_step)).map fun i =>
    decide (dft_threshold < Complex.abs (dft ch (start_idx + i * dft_step)))

/-- `DFTSteganographyFloat32.extract`: streams the per-bin bits through the
marker scan and decodes whatever bit string results — when the marker is
never found the scanned bits themselves are decoded (no sentinel). -/
def dft_extract (ch : List ℝ) : List ℕ :=
  binary_to_text (runScan (dftBits ch)).1

theorem maxList_nonneg (l : List ℝ) : 0 ≤ maxList l := by
  induction l with
  | nil => simp [maxList]
  | cons x l ih =>
    simp only [maxList, List.foldr_cons] at *
    exact le_trans ih (le_max_right x _)

theorem le_maxList (l : List ℝ) (x : ℝ) (hx : x ∈ l) : x ≤ maxList l := by
  induction l with
  | nil => simp at hx
  | cons y l ih =>
    rcases List.mem_cons.mp hx with rfl | hmem
    · simp only [maxList, List.foldr_cons]
      exact le_max_left _ _
    · simp only [maxList, List.foldr_cons] at *
      exact le_trans (ih hmem) (le_max_right _ _)

theorem maxList_le (l : List ℝ) (c : ℝ) (hc : 0 ≤ c) (h : ∀ x ∈ l, x ≤ c) :
    maxList l ≤ c := by
  induction l with
  | nil => simpa [maxList]
  | cons x l ih =>
    simp only [maxList, List.foldr_cons]
    exact max_le (h x (by simp)) (ih (fun y hy => h y (by simp [hy])))

theorem peakAbs_nonneg (ch : List ℝ) : 0 ≤ peakAbs ch := maxList_nonneg _

theorem abs_le_peakAbs (ch : List ℝ) (x : ℝ) (hx : x ∈ ch) : |x| ≤ peakAbs ch :=
  le_maxList _ _ (List.mem_map_of_mem _ hx)

theorem peakAbs_le (ch : List ℝ) (c : ℝ) (hc : 0 ≤ c) (h : ∀ x ∈ ch, |x| ≤ c) :
    peakAbs ch ≤ c := by
  apply maxList_le _ _ hc
  intro y hy
  obtain ⟨x, hx, rfl⟩ := List.mem_map.mp hy
  exact h x hx

/-- C10. Implicit safety precondition of the frequency-amplitude (DFT)
embed: the normalization step divides the channel by `np.max(np.abs(channel))`
with no zero guard; a channel with at least one nonzero sample makes the
divisor nonzero (indeed positive), while an all-zero channel makes it zero. -/
theorem dft_normalize_divisor (ch : List ℝ) :
    dftNormalize ch = ch.map (fun s => s / peakAbs ch) ∧
    ((∃ x ∈ ch, x ≠ 0) → peakAbs ch ≠ 0) ∧
    ((∀ x ∈ ch, x = 0) → peakAbs ch = 0) := by
  refine ⟨rfl, ?_, ?_⟩
  · rintro ⟨x, hx, hxne⟩
    have h1 : |x| ≤ peakAbs ch := abs_le_peakAbs ch x hx
    have h2 : 0 < |x| := abs_pos.mpr hxne
    exact ne_of_gt (lt_of_lt_of_le h2 h1)
  · intro hall
    have h1 : peakAbs ch ≤ 0 := peakAbs_le ch 0 le_rfl
      (fun x hx => by rw [hall x hx]; simp)
    exact le_antisymm h1 (peakAbs_nonneg ch)

/-- Witness for C10: the channel [0, 2] has a nonzero divisor, the all-zero
channel [0, 0] has divisor zero. -/
theorem dft_normalize_divisor_witness :
    (∃ x ∈ ([0, 2] : List ℝ), x ≠ 0) ∧ peakAbs [0, 2] ≠ 0 ∧
      (∀ x ∈ ([0, 0] : List ℝ), x = 0) ∧ peakAbs [0, 0] = 0 := by
  have hx : ∃ x ∈ ([0, 2] : List ℝ), x ≠ 0 := ⟨2, by norm_num⟩
  have hz : ∀ x ∈ ([0, 0] : List ℝ), x = 0 := by
    intro x hx
    rcases List.mem_cons.mp hx with rfl | h2
    · rfl
    · simpa using h2
  exact ⟨hx, (dft_normalize_divisor [0, 2]).2.1 hx,
    hz, (dft_normalize_divisor [0, 0]).2.2 hz⟩

/-- C7. Threshold boundary of the frequency-amplitude (DFT) strategy: the
`i`-th candidate bit produced by `extract` is 1 exactly when the magnitude of
spectral bin `start_idx + i*step` strictly exceeds `threshold = 0.005`; a
magnitude exactly equal to the threshold decodes as 0. -/
theorem dft_threshold_boundary (ch : List ℝ) (i : ℕ)
    (hi : i < (ch.length / 2 - start_idx) / dft_step) :
    ((dftBits ch).getD i false = true
        ↔ dft_threshold < Complex.abs (dft ch (start_idx + i * dft_step))) ∧
      (Complex.abs (dft ch (start_idx + i * dft_step)) = dft_threshold →
        (dftBits ch).getD i false = false) := by
  have hbit : (dftBits ch).getD i false
      = decide (dft_threshold < Complex.abs (dft ch (start_idx + i * dft_step))) := by
    unfold dftBits
    exact mapRange_getD _ _ i false hi
  constructor
  · rw [hbit]
    simp
  · intro heq
    rw [hbit, heq]
    simp

/-- The DFT of a discrete impulse: every bin equals the impulse amplitude. -/
theorem dftC_delta (c : ℂ) (m k : ℕ) : dftC (c :: List.replicate m 0) k = c := by
  unfold dftC
  have hlen : (c :: List.replicate m (0 : ℂ)).length = m + 1 := by
    simp only [List.length_cons, List.length_replicate]
  rw [hlen, Finset.sum_eq_single 0]
  · simp
  · intro n _ hn
    rcases n with _ | n
    · exact absurd rfl hn
    · have h0 : (c :: List.replicate m (0 : ℂ)).getD (n + 1) 0 = 0 := by
        rw [List.getD_cons_succ]
        rcases lt_or_le n m with hlt | hge
        · rw [List.getD_eq_getElem _ _ (by simpa using hlt)]
          simp
        · rw [List.getD_eq_default _ _ (by simpa using hge)]
      rw [h0, zero_mul]
  · intro h0
    exact absurd (Finset.mem_range.mpr (by omega)) h0

theorem dft_delta (c : ℝ) (m k : ℕ) :
    dft (c :: List.replicate m 0) k = (c : ℂ) := by
  unfold dft
  have hmap : (c :: List.replicate m (0 : ℝ)).map Complex.ofReal
      = (c : ℂ) :: List.replicate m (0 : ℂ) := by
    rw [List.map_cons, List.map_replicate, Complex.ofReal_zero]
  rw [hmap, dftC_delta]

/-- Witness for C7: a channel whose bin 2000 has magnitude exactly 0.005
(the threshold) decodes that bit as 0. -/
theorem dft_threshold_boundary_witness :
    (0 : ℕ) < ((((0.005 : ℝ) :: List.replicate 4003 0).length / 2 - start_idx) / dft_step) ∧
      Complex.abs (dft ((0.005 : ℝ) :: List.replicate 4003 0) (start_idx + 0 * dft_step))
        = dft_threshold ∧
      (dftBits ((0.005 : ℝ) :: List.replicate 4003 0)).getD 0 false = false := by
  have hlen : (((0.005 : ℝ) :: List.replicate 4003 0)).length = 4004 := by
    simp only [List.length_cons, List.length_replicate]
  have hi : (0 : ℕ) < ((((0.005 : ℝ) :: List.replicate 4003 0).length / 2 - start_idx) / dft_step) := by
    rw [hlen]
    norm_num [start_idx, dft_step]
  have habs : Complex.abs (dft ((0.005 : ℝ) :: List.replicate 4003 0) (start_idx + 0 * dft_step))
      = dft_threshold := by
    rw [dft_delta, Complex.abs_ofReal]
    norm_num [dft_threshold]
  exact ⟨hi, habs, (dft_threshold_boundary _ 0 hi).2 habs⟩

theorem exp_term_merge (N j k n : ℕ) (hN : 0 < N) :
    Complex.exp (2 * Real.pi * Complex.I * j * n / N)
      * Complex.exp (-(2 * Real.pi * Complex.I * k * n) / N)
      = Complex.exp ((((j : ℤ) : ℂ) - k) * (2 * Real.pi * Complex.I) / N) ^ n := by
  rw [← Complex.exp_add, ← Complex.exp_nat_mul]
  congr 1
  have hNC : (N : ℂ) ≠ 0 := Nat.cast_ne_zero.mpr (by omega)
  push_cast
  field_simp
  ring

theorem exp_sum_orthogonal (N j k : ℕ) (hN : 0 < N) (hj : j < N) (hk : k < N) :
    ∑ n ∈ Finset.range N, Complex.exp (2 * Real.pi * Complex.I * j * n / N)
      * Complex.exp (-(2 * Real.pi * Complex.I * k * n) / N)
      = if j = k then (N : ℂ) else 0 := by
  have hNC : (N : ℂ) ≠ 0 := Nat.cast_ne_zero.mpr (by omega)
  rw [Finset.sum_congr rfl (fun n _ => exp_term_merge N j k n hN)]
  by_cases hjk : j = k
  · subst hjk
    have hz : (((j : ℤ) : ℂ) - j) * (2 * Real.pi * Complex.I) / N = 0 := by
      push_cast
      ring
    rw [hz, if_pos rfl]
    simp
  · rw [if_neg hjk]
    have hne1 : Complex.exp ((((j : ℤ) : ℂ) - k) * (2 * Real.pi * Complex.I) / N) ≠ 1 := by
      intro hone
      rw [Complex.exp_eq_one_iff] at hone
      obtain ⟨t, ht⟩ := hone
      have h2pi : (2 * (Real.pi : ℂ) * Complex.I) ≠ 0 := by
        refine mul_ne_zero (mul_ne_zero (by norm_num) ?_) Complex.I_ne_zero
        exact Complex.ofReal_ne_zero.mpr Real.pi_ne_zero
      have hlin : (((j : ℤ) : ℂ) - k) = t * N := by
        have h2 : (((j : ℤ) : ℂ) - k) * (2 * Real.pi * Complex.I)
            = (t * N) * (2 * Real.pi * Complex.I) := by
          rw [div_eq_iff hNC] at ht
          rw [ht]
          ring
        exact mul_right_cancel₀ h2pi h2
      have hint : ((j : ℤ) - k) = t * N := by exact_mod_cast hlin
      have ht0 : t = 0 := by
        by_contra htne
        have h1 : 1 ≤ |t| := Int.one_le_abs htne
        have h2 : (N : ℤ) ≤ |t| * N :=
          le_mul_of_one_le_left (by positivity) h1
        have h3 : |(j : ℤ) - k| = |t| * N := by
          rw [hint, abs_mul, abs_of_nonneg (by positivity : (0 : ℤ) ≤ (N : ℤ))]
        have h4 : |(j : ℤ) - k| < N := by
          rw [abs_lt]
          omega
        omega
      rw [ht0] at hint
      simp at hint
      omega
    rw [geom_sum_eq hne1]
    have hzN : Complex.exp ((((j : ℤ) : ℂ) - k) * (2 * Real.pi * Complex.I) / N) ^ N = 1 := by
      rw [← Complex.exp_nat_mul]
      have harr : (N : ℂ) * (((( j : ℤ) : ℂ) - k) * (2 * Real.pi * Complex.I) / N)
          = (((j : ℤ) - k : ℤ) : ℂ) * (2 * Real.pi * Complex.I) := by
        push_cast
        field_simp
      rw [harr]
      exact Complex.exp_int_mul_two_pi_mul_I ((j : ℤ) - k)
    rw [hzN]
    simp

/-- The forward transform recomputed by `extract` undoes the inverse transform
used by `embed`: `fft(ifft(X))[k] = X[k]`. -/
theorem dftC_ifftC (X : ℕ → ℂ) (N k : ℕ) (hk : k < N) :
    dftC (ifftC X N) k = X k := by
  have hN : 0 < N := by omega
  have hNC : (N : ℂ) ≠ 0 := Nat.cast_ne_zero.mpr (by omega)
  unfold dftC ifftC
  rw [List.length_map, List.length_range]
  have hterm : ∀ n ∈ Finset.range N,
      ((List.range N).map (fun (n : ℕ) =>
          (∑ j ∈ Finset.range N, X j * Complex.exp (2 * Real.pi * Complex.I * j * n / N)) / N)).getD n 0
        * Complex.exp (-(2 * Real.pi * Complex.I * k * n) / N)
      = ∑ j ∈ Finset.range N,
          X j * (Complex.exp (2 * Real.pi * Complex.I * j * n / N)
            * Complex.exp (-(2 * Real.pi * Complex.I * k * n) / N)) / N := by
    intro n hn
    rw [mapRange_getD _ N n 0 (Finset.mem_range.mp hn), div_mul_eq_mul_div, Finset.sum_mul,
      Finset.sum_div]
    exact Finset.sum_congr rfl (fun j _ => by ring)
  rw [Finset.sum_congr rfl hterm, Finset.sum_comm]
  have hinner : ∀ j ∈ Finset.range N,
      (∑ n ∈ Finset.range N,
        X j * (Complex.exp (2 * Real.pi * Complex.I * j * n / N)
          * Complex.exp (-(2 * Real.pi * Complex.I * k * n) / N)) / N)
      = X j * (if j = k then (N : ℂ) else 0) / N := by
    intro j hj
    rw [← Finset.sum_div, ← Finset.mul_sum,
      exp_sum_orthogonal N j k hN (Finset.mem_range.mp hj) hk]
  rw [Finset.sum_congr rfl hinner, Finset.sum_eq_single k]
  · rw [if_pos rfl]
    field_simp
  · intro j _ hjk
    rw [if_neg hjk, mul_zero, zero_div]
  · intro hknot
    exact absurd (Finset.mem_range.mpr hk) hknot

/-- The inverse transform undoes the forward transform:
`ifft(fft(x))[n] = x[n]` for a (complexified) real channel. -/
theorem ifftC_dft (x : List ℝ) (n : ℕ) (hn : n < x.length) :
    (ifftC (fun k => dft x k) x.length).getD n 0 = ((x.getD n 0 : ℝ) : ℂ) := by
  set N := x.length with hNdef
  have hN : 0 < N := by omega
  have hNC : (N : ℂ) ≠ 0 := Nat.cast_ne_zero.mpr (by omega)
  unfold ifftC dft dftC
  rw [mapRange_getD _ N n 0 hn]
  have hterm : ∀ k ∈ Finset.range N,
      (∑ j ∈ Finset.range ((x.map Complex.ofReal).length),
          (x.map Complex.ofReal).getD j 0
            * Complex.exp (-(2 * Real.pi * Complex.I * k * j) / ((x.map Complex.ofReal).length)))
        * Complex.exp (2 * Real.pi * Complex.I * k * n / N)
      = ∑ j ∈ Finset.range N, (x.map Complex.ofReal).getD j 0
          * (Complex.exp (2 * Real.pi * Complex.I * n * k / N)
            * Complex.exp (-(2 * Real.pi * Complex.I * j * k) / N)) := by
    intro k hk
    rw [List.length_map, ← hNdef, Finset.sum_mul]
    refine Finset.sum_congr rfl (fun j _ => ?_)
    have e1 : 2 * Real.pi * Complex.I * (k : ℂ) * n / N
        = 2 * Real.pi * Complex.I * (n : ℂ) * k / N := by ring
    have e2 : -(2 * Real.pi * Complex.I * (k : ℂ) * j) / N
        = -(2 * Real.pi * Complex.I * (j : ℂ) * k) / N := by ring
    rw [e1, e2]
    ring
  rw [Finset.sum_congr rfl hterm, Finset.sum_comm]
  have hinner : ∀ j ∈ Finset.range N,
      (∑ k ∈ Finset.range N, (x.map Complex.ofReal).getD j 0
        * (Complex.exp (2 * Real.pi * Complex.I * n * k / N)
          * Complex.exp (-(2 * Real.pi * Complex.I * j * k) / N)))
      = (x.map Complex.ofReal).getD j 0 * (if n = j then (N : ℂ) else 0) := by
    intro j hj
    rw [← Finset.mul_sum, exp_sum_orthogonal N n j hN hn (Finset.mem_range.mp hj)]
  rw [Finset.sum_congr rfl hinner, Finset.sum_eq_single n]
  · rw [if_pos rfl]
    have hget : (x.map Complex.ofReal).getD n 0 = ((x.getD n 0 : ℝ) : ℂ) := by
      rw [List.getD_eq_getElem _ _ (by simpa using hn), List.getD_eq_getElem _ _ hn]
      simp
    rw [hget]
    field_simp
  · intro j _ hjn
    rw [if_neg (fun h => hjn h.symm), mul_zero]
  · intro hnnot
    exact absurd (Finset.mem_range.mpr hn) hnnot

theorem map_ofReal_getD (x : List ℝ) (n : ℕ) :
    (x.map Complex.ofReal).getD n 0 = ((x.getD n 0 : ℝ) : ℂ) := by
  rcases lt_or_le n x.length with h | h
  · rw [List.getD_eq_getElem _ _ (by simpa using h), List.getD_eq_getElem _ _ h]
    simp
  · rw [List.getD_eq_default _ _ (by simpa using h), List.getD_eq_default _ _ h]
    simp

/-- Conjugate symmetry of a length-`N` spectrum: bin 0 is real and bin `N - k`
is the conjugate of bin `k`. -/
def ConjSym (X : ℕ → ℂ) (N : ℕ) : Prop :=
  (X 0).im = 0 ∧ ∀ k, 1 ≤ k → k ≤ N - 1 → X (N - k) = starRingEnd ℂ (X k)

theorem exp_conj_neg (k n N : ℕ) :
    starRingEnd ℂ (Complex.exp (-(2 * Real.pi * Complex.I * k * n) / N))
      = Complex.exp (2 * Real.pi * Complex.I * k * n / N) := by
  rw [← Complex.exp_conj]
  congr 1
  rw [map_div₀, map_neg]
  simp [Complex.conj_I, map_ofNat]

/-- The forward transform of a real channel has conjugate symmetry. -/
theorem dft_conjSym (x : List ℝ) : ConjSym (fun k => dft x k) x.length := by
  constructor
  · simp only
    unfold dft dftC
    rw [List.length_map]
    rw [Complex.im_sum]
    apply Finset.sum_eq_zero
    intro n _
    rw [map_ofReal_getD]
    have hz : -(2 * Real.pi * Complex.I * ((0 : ℕ) : ℂ) * n) / x.length = 0 := by
      push_cast
      ring
    rw [hz, Complex.exp_zero, mul_one, Complex.ofReal_im]
  · intro k h1 h2
    simp only
    have hklen : k ≤ x.length := by omega
    have hlen2 : 2 ≤ x.length := by omega
    have hNC : (x.length : ℂ) ≠ 0 := Nat.cast_ne_zero.mpr (by omega)
    unfold dft dftC
    rw [List.length_map, map_sum]
    refine Finset.sum_congr rfl (fun n _ => ?_)
    rw [map_mul, map_ofReal_getD, Complex.conj_ofReal, exp_conj_neg]
    congr 1
    have hc : ((x.length - k : ℕ) : ℂ) = (x.length : ℂ) - k := by
      push_cast [Nat.cast_sub hklen]
      ring
    have hsplit : -(2 * Real.pi * Complex.I * ((x.length - k : ℕ) : ℂ) * n) / x.length
        = 2 * Real.pi * Complex.I * k * n / x.length + (-(((n : ℤ) : ℂ))) * (2 * Real.pi * Complex.I) := by
      rw [hc]
      field_simp
      ring
    rw [hsplit, Complex.exp_add]
    have hone : Complex.exp (-(((n : ℤ) : ℂ)) * (2 * Real.pi * Complex.I)) = 1 := by
      have he : (-(((n : ℤ) : ℂ))) = (((-n : ℤ) : ℤ) : ℂ) := by push_cast; ring
      rw [he]
      exact Complex.exp_int_mul_two_pi_mul_I (-(n : ℤ))
    rw [hone, mul_one]

/-- The inverse transform of a conjugate-symmetric spectrum is real-valued, so
taking `np.real` after `ifft` loses nothing. -/
theorem ifftC_real (X : ℕ → ℂ) (N : ℕ) (hcs : ConjSym X N) :
    ∀ z ∈ ifftC X N, z.im = 0 := by
  intro z hz
  unfold ifftC at hz
  obtain ⟨n, hn, rfl⟩ := List.mem_map.mp hz
  have hnN : n < N := List.mem_range.mp hn
  have hN : 0 < N := by omega
  rw [← Complex.conj_eq_iff_im, map_div₀]
  have hconjN : starRingEnd ℂ ((N : ℕ) : ℂ) = N := by simp
  rw [hconjN]
  congr 1
  rw [map_sum]
  have hsplitset : Finset.range N = insert 0 (Finset.Ico 1 N) := by
    ext a
    simp only [Finset.mem_range, Finset.mem_insert, Finset.mem_Ico]
    omega
  rw [hsplitset, Finset.sum_insert (by simp), Finset.sum_insert (by simp)]
  congr 1
  · have hz0 : 2 * Real.pi * Complex.I * ((0 : ℕ) : ℂ) * n / N = 0 := by
      push_cast
      ring
    rw [map_mul, hz0, Complex.exp_zero, map_one,
      Complex.conj_eq_iff_im.mpr hcs.1]
  · refine Finset.sum_nbij' (fun k => N - k) (fun k => N - k) ?_ ?_ ?_ ?_ ?_
    · intro a ha
      simp only [Finset.mem_Ico] at *
      omega
    · intro a ha
      simp only [Finset.mem_Ico] at *
      omega
    · intro a ha
      simp only [Finset.mem_Ico] at ha
      show N - (N - a) = a
      omega
    · intro a ha
      simp only [Finset.mem_Ico] at ha
      show N - (N - a) = a
      omega
    · intro a ha
      simp only [Finset.mem_Ico] at ha
      rw [map_mul, ← hcs.2 a (by omega) (by omega)]
      congr 1
      have hconjexp : starRingEnd ℂ (Complex.exp (2 * Real.pi * Complex.I * a * n / N))
          = Complex.exp (-(2 * Real.pi * Complex.I * a * n) / N) := by
        rw [← Complex.exp_conj]
        congr 1
        rw [map_div₀]
        simp [Complex.conj_I, map_ofNat]
      rw [hconjexp]
      have hc : ((N - a : ℕ) : ℂ) = (N : ℂ) - a := by
        push_cast [Nat.cast_sub (by omega : a ≤ N)]
        ring
      have hNC : (N : ℂ) ≠ 0 := Nat.cast_ne_zero.mpr (by omega)
      have hsplit : 2 * Real.pi * Complex.I * ((N - a : ℕ) : ℂ) * n / N
          = -(2 * Real.pi * Complex.I * a * n) / N + ((n : ℤ)) * (2 * Real.pi * Complex.I) := by
        rw [hc]
        field_simp
        ring
      rw [hsplit, Complex.exp_add, Complex.exp_int_mul_two_pi_mul_I, mul_one]

/-- Recasting the real part list back to ℂ recovers a real-valued list. -/
theorem map_re_ofReal (l : List ℂ) (h : ∀ z ∈ l, z.im = 0) :
    (l.map Complex.re).map Complex.ofReal = l := by
  rw [List.map_map]
  conv_rhs => rw [← List.map_id l]
  apply List.map_congr_left
  intro z hz
  exact Complex.ext rfl ((h z hz).symm)

/-- The spectrum recomputed by `extract` from the real part of the
reconstructed channel is exactly the embedded spectrum. -/
theorem dft_map_re (X : ℕ → ℂ) (N k : ℕ) (hcs : ConjSym X N) (hk : k < N) :
    dft ((ifftC X N).map Complex.re) k = X k := by
  unfold dft
  rw [map_re_ofReal _ (ifftC_real X N hcs)]
  have hlen : (ifftC X N).length = N := by simp [ifftC]
  exact dftC_ifftC X N k hk

theorem exp_two_pi_abs (k n N : ℕ) :
    Complex.abs (Complex.exp (2 * Real.pi * Complex.I * k * n / N)) = 1 := by
  have he : (2 * Real.pi * Complex.I * (k : ℂ) * n / N)
      = ((2 * Real.pi * k * n / N : ℝ) : ℂ) * Complex.I := by
    push_cast
    ring
  rw [he, Complex.abs_exp_ofReal_mul_I]

/-- Every sample is bounded by the spectral maximum: the peak of a channel
never exceeds `np.max(np.abs(fft(channel)))`. -/
theorem peakAbs_le_specMax (x : List ℝ) : peakAbs x ≤ specMax x := by
  apply peakAbs_le _ _ (maxList_nonneg _)
  intro s hs
  obtain ⟨n, hn, rfl⟩ := List.mem_iff_getElem.mp hs
  have hN : 0 < x.length := by omega
  have hNR : (0 : ℝ) < x.length := by exact_mod_cast hN
  have hget : x[n] = x.getD n 0 := (List.getD_eq_getElem x 0 hn).symm
  rw [hget]
  have habs : |x.getD n 0| = Complex.abs ((x.getD n 0 : ℝ) : ℂ) := by
    rw [Complex.abs_ofReal]
  rw [habs, ← ifftC_dft x n hn]
  unfold ifftC
  rw [mapRange_getD _ x.length n 0 hn]
  rw [map_div₀, Complex.abs_natCast]
  rw [div_le_iff₀ hNR]
  calc Complex.abs (∑ k ∈ Finset.range x.length,
        dft x k * Complex.exp (2 * Real.pi * Complex.I * k * n / x.length))
      ≤ ∑ k ∈ Finset.range x.length,
          Complex.abs (dft x k * Complex.exp (2 * Real.pi * Complex.I * k * n / x.length)) :=
        Complex.abs.sum_le _ _
    _ ≤ ∑ _k ∈ Finset.range x.length, specMax x := by
        apply Finset.sum_le_sum
        intro k hk
        rw [map_mul, exp_two_pi_abs, mul_one]
        exact le_maxList _ _ (List.mem_map.mpr
          ⟨k, List.mem_range.mpr (Finset.mem_range.mp hk), rfl⟩)
    _ = specMax x * x.length := by
        rw [Finset.sum_const, Finset.card_range]
        simp [mul_comm]

theorem maxList_map_div (l : List ℝ) (p : ℝ) (hp : 0 < p) :
    maxList (l.map (fun a => a / p)) = maxList l / p := by
  induction l with
  | nil => simp [maxList]
  | cons x l ih =>
    simp only [maxList, List.map_cons, List.foldr_cons] at *
    rw [ih, max_div_div_right (le_of_lt hp)]

theorem peakAbs_map_div (l : List ℝ) (p : ℝ) (hp : 0 < p) :
    peakAbs (l.map (fun s => s / p)) = peakAbs l / p := by
  unfold peakAbs
  rw [List.map_map]
  have hcomp : ((fun s => |s|) ∘ fun s => s / p) = fun s => |s| / p := by
    funext s
    simp only [Function.comp_apply, abs_div, abs_of_pos hp]
  rw [hcomp]
  have hmm : (l.map fun s => |s| / p) = ((l.map fun s => |s|).map fun a => a / p) := by
    rw [List.map_map]
    rfl
  rw [hmm]
  exact maxList_map_div _ _ hp

/-- After the normalization step a nonzero channel has peak exactly 1. -/
theorem peakAbs_normalize (ch : List ℝ) (h : peakAbs ch ≠ 0) :
    peakAbs (dftNormalize ch) = 1 := by
  have hp : 0 < peakAbs ch := lt_of_le_of_ne (peakAbs_nonneg ch) (Ne.symm h)
  unfold dftNormalize
  rw [peakAbs_map_div _ _ hp]
  exact div_self h

theorem bin_plus_two_le (N L i : ℕ) (hcap : L ≤ (N / 2 - start_idx) / dft_step)
    (hi : i < L) : start_idx + i * dft_step + 2 ≤ N / 2 := by
  simp only [start_idx, dft_step] at *
  omega

/-- The embedding loop preserves conjugate symmetry: the mirror write
`channel_dft[-idx] = conj(channel_dft[idx])` keeps the spectrum
conjugate-symmetric, so the inverse transform stays real-valued. -/
theorem embedSpectrum_conjSym (X : ℕ → ℂ) (N : ℕ) (bits : List Bool) (mx : ℝ)
    (hcs : ConjSym X N) (hcap : bits.length ≤ (N / 2 - start_idx) / dft_step) :
    ConjSym (embedSpectrum X N bits mx) N := by
  constructor
  · unfold embedSpectrum
    rw [if_neg (by simp only [start_idx]; omega)]
    rw [if_neg (by intro hcon; omega)]
    exact hcs.1
  · intro k h1 h2
    have hkN : k ≤ N - 1 := h2
    by_cases hc1 : start_idx ≤ k ∧ (k - start_idx) % dft_step = 0
        ∧ (k - start_idx) / dft_step < bits.length
    · have hb2 := bin_plus_two_le N bits.length ((k - start_idx) / dft_step) hcap hc1.2.2
      have hk2 : k + 2 ≤ N / 2 := by
        simp only [start_idx, dft_step] at *
        omega
      have hnk1 : ¬ (start_idx ≤ N - k ∧ (N - k - start_idx) % dft_step = 0
          ∧ (N - k - start_idx) / dft_step < bits.length) := by
        intro hcon
        have := bin_plus_two_le N bits.length ((N - k - start_idx) / dft_step) hcap hcon.2.2
        simp only [start_idx, dft_step] at *
        omega
      have hnk2 : start_idx ≤ N - (N - k) ∧ (N - (N - k) - start_idx) % dft_step = 0
          ∧ (N - (N - k) - start_idx) / dft_step < bits.length
          ∧ 1 ≤ N - k ∧ N - k ≤ N - 1 := by
        have he : N - (N - k) = k := by omega
        rw [he]
        refine ⟨hc1.1, hc1.2.1, hc1.2.2, by omega, by omega⟩
      show embedSpectrum X N bits mx (N - k) = starRingEnd ℂ (embedSpectrum X N bits mx k)
      unfold embedSpectrum
      rw [if_neg hnk1, if_pos hnk2, if_pos hc1]
      have he : N - (N - k) = k := by omega
      rw [he]
    · by_cases hc2 : start_idx ≤ N - k ∧ (N - k - start_idx) % dft_step = 0
          ∧ (N - k - start_idx) / dft_step < bits.length ∧ 1 ≤ k ∧ k ≤ N - 1
      · have hb2 := bin_plus_two_le N bits.length ((N - k - start_idx) / dft_step) hcap hc2.2.2.1
        have hbk : N - k + 2 ≤ N / 2 := by
          simp only [start_idx, dft_step] at *
          omega
        have hmk1 : start_idx ≤ N - k ∧ (N - k - start_idx) % dft_step = 0
            ∧ (N - k - start_idx) / dft_step < bits.length :=
          ⟨hc2.1, hc2.2.1, hc2.2.2.1⟩
        show embedSpectrum X N bits mx (N - k) = starRingEnd ℂ (embedSpectrum X N bits mx k)
        unfold embedSpectrum
        rw [if_pos hmk1, if_neg hc1, if_pos hc2, Complex.conj_conj]
      · have hnk1 : ¬ (start_idx ≤ N - k ∧ (N - k - start_idx) % dft_step = 0
            ∧ (N - k - start_idx) / dft_step < bits.length) := by
          intro hcon
          exact hc2 ⟨hcon.1, hcon.2.1, hcon.2.2, h1, h2⟩
        have hnk2 : ¬ (start_idx ≤ N - (N - k) ∧ (N - (N - k) - start_idx) % dft_step = 0
            ∧ (N - (N - k) - start_idx) / dft_step < bits.length
            ∧ 1 ≤ N - k ∧ N - k ≤ N - 1) := by
          intro hcon
          have he : N - (N - k) = k := by omega
          rw [he] at hcon
          exact hc1 ⟨hcon.1, hcon.2.1, hcon.2.2.1⟩
        show embedSpectrum X N bits mx (N - k) = starRingEnd ℂ (embedSpectrum X N bits mx k)
        unfold embedSpectrum
        rw [if_neg hnk1, if_neg hnk2, if_neg hc1, if_neg (fun h => hc2 h)]
        exact hcs.2 k h1 h2

/-- The embedded spectrum at the bin of framed bit `i` is the forced value. -/
theorem embedSpectrum_at_bin (X : ℕ → ℂ) (N : ℕ) (bits : List Bool) (mx : ℝ)
    (i : ℕ) (hi : i < bits.length) :
    embedSpectrum X N bits mx (start_idx + i * dft_step) = modVal X bits mx i := by
  unfold embedSpectrum
  rw [if_pos]
  · congr 1
    simp only [start_idx, dft_step]
    omega
  · refine ⟨by omega, ?_, ?_⟩
    · simp only [start_idx, dft_step]
      omega
    · simp only [start_idx, dft_step]
      have he : (start_idx + i * dft_step - start_idx) / dft_step = i := by
        simp only [start_idx, dft_step]
        omega
      simp only [start_idx, dft_step] at he
      rw [he]
      exact hi

/-- Magnitude of the forced spectral value: the amplitude itself (the phase
factor has unit magnitude). -/
theorem abs_modVal (X : ℕ → ℂ) (bits : List Bool) (mx : ℝ) (i : ℕ) (hmx : 0 ≤ mx) :
    Complex.abs (modVal X bits mx i)
      = min (if bits.getD i false then dft_bit1_value else dft_bit0_value) (mx * 0.1) := by
  unfold modVal
  rw [map_mul, Complex.abs_exp_ofReal_mul_I, mul_one, Complex.abs_ofReal]
  apply abs_of_nonneg
  apply le_min
  · cases h : bits.getD i false <;> simp [dft_bit1_value, dft_bit0_value] <;> norm_num
  · positivity

theorem map_div_ofReal_getD (x : List ℝ) (c : ℝ) (n : ℕ) :
    (x.map (Complex.ofReal ∘ fun s => s / c)).getD n 0 = ((x.getD n 0 / c : ℝ) : ℂ) := by
  rcases lt_or_le n x.length with h | h
  · rw [List.getD_eq_getElem _ _ (by simpa using h), List.getD_eq_getElem _ _ h]
    simp
  · rw [List.getD_eq_default _ _ (by simpa using h), List.getD_eq_default _ _ h]
    simp

/-- Linearity of the forward transform under the final re-normalization
division. -/
theorem dft_map_div (x : List ℝ) (c : ℝ) (k : ℕ) :
    dft (x.map (fun s => s / c)) k = dft x k / (c : ℂ) := by
  unfold dft dftC
  rw [List.map_map, List.length_map, List.length_map, Finset.sum_div]
  refine Finset.sum_congr rfl (fun n _ => ?_)
  rw [map_div_ofReal_getD, map_ofReal_getD, Complex.ofReal_div]
  ring

/-- An inverse transform whose spectrum is uniformly bounded by `c` has all
its (real-part) samples bounded by `c`. -/
theorem ifft_re_peak_le (X : ℕ → ℂ) (N : ℕ) (c : ℝ) (hc : 0 ≤ c) (hN : 0 < N)
    (hX : ∀ k < N, Complex.abs (X k) ≤ c) :
    peakAbs ((ifftC X N).map Complex.re) ≤ c := by
  apply peakAbs_le _ _ hc
  intro s hs
  obtain ⟨z, hz, rfl⟩ := List.mem_map.mp hs
  have h1 : |z.re| ≤ Complex.abs z := Complex.abs_re_le_abs z
  refine le_trans h1 ?_
  unfold ifftC at hz
  obtain ⟨n, hn, rfl⟩ := List.mem_map.mp hz
  have hNR : (0 : ℝ) < N := by exact_mod_cast hN
  rw [map_div₀, Complex.abs_natCast, div_le_iff₀ hNR]
  calc Complex.abs (∑ k ∈ Finset.range N,
        X k * Complex.exp (2 * Real.pi * Complex.I * k * n / N))
      ≤ ∑ k ∈ Finset.range N,
          Complex.abs (X k * Complex.exp (2 * Real.pi * Complex.I * k * n / N)) :=
        Complex.abs.sum_le _ _
    _ ≤ ∑ _k ∈ Finset.range N, c := by
        apply Finset.sum_le_sum
        intro k hk
        rw [map_mul, exp_two_pi_abs, mul_one]
        exact hX k (Finset.mem_range.mp hk)
    _ = c * N := by
        rw [Finset.sum_const, Finset.card_range]
        simp [mul_comm]

theorem dftPreNorm_eq (ch : List ℝ) (msg : List ℕ) :
    dftPreNorm ch msg
      = (ifftC (embedSpectrum (fun k => dft (dftNormalize ch) k) ch.length (frame msg)
          (specMax (dftNormalize ch))) ch.length).map Complex.re := rfl

theorem dftPreNorm_length (ch : List ℝ) (msg : List ℕ) :
    (dftPreNorm ch msg).length = ch.length := by
  rw [dftPreNorm_eq]
  simp [ifftC]

theorem dftOut_length (ch : List ℝ) (msg : List ℕ) :
    (dftOut ch msg).length = ch.length := by
  unfold dftOut
  split
  · rw [List.length_map, dftPreNorm_length]
  · rw [dftPreNorm_length]

/-- The leading per-bin bits recovered by `extract` from an embedded channel
are exactly the framed message bits, provided the channel has a nonzero
sample and the pre-renormalization peak stays below 2 (so the division cannot
push a bit-1 magnitude to or below the threshold). -/
theorem dftBits_take_dft (ch : List ℝ) (msg : List ℕ)
    (hnz : peakAbs ch ≠ 0)
    (hcap : (frame msg).length ≤ (ch.length / 2 - start_idx) / dft_step)
    (hd : peakAbs (dftPreNorm ch msg) < 2) :
    (dftBits (dftOut ch msg)).take (frame msg).length = frame msg := by
  have hxlen : (dftNormalize ch).length = ch.length := by simp [dftNormalize]
  have hcs : ConjSym (fun k => dft (dftNormalize ch) k) ch.length := by
    rw [← hxlen]
    exact dft_conjSym (dftNormalize ch)
  have hcs2 : ConjSym (embedSpectrum (fun k => dft (dftNormalize ch) k) ch.length
      (frame msg) (specMax (dftNormalize ch))) ch.length :=
    embedSpectrum_conjSym _ _ _ _ hcs hcap
  have hmx1 : 1 ≤ specMax (dftNormalize ch) := by
    have h1 := peakAbs_le_specMax (dftNormalize ch)
    rw [peakAbs_normalize ch hnz] at h1
    exact h1
  have hmx0 : (0 : ℝ) ≤ specMax (dftNormalize ch) := by linarith
  have houtlen := dftOut_length ch msg
  unfold dftBits
  rw [houtlen, ← List.map_take, List.take_range, Nat.min_eq_left hcap]
  apply List.ext_getElem
  · simp
  · intro i h1 h2
    have hi : i < (frame msg).length := by simpa using h2
    rw [List.getElem_map, List.getElem_range]
    have hbin_lt : start_idx + i * dft_step < ch.length := by
      have h2b := bin_plus_two_le ch.length (frame msg).length i hcap hi
      omega
    have hXval : dft (dftPreNorm ch msg) (start_idx + i * dft_step)
        = embedSpectrum (fun k => dft (dftNormalize ch) k) ch.length (frame msg)
            (specMax (dftNormalize ch)) (start_idx + i * dft_step) := by
      rw [dftPreNorm_eq]
      exact dft_map_re _ _ _ hcs2 hbin_lt
    have hampmin : min (if (frame msg).getD i false then dft_bit1_value else dft_bit0_value)
        (specMax (dftNormalize ch) * 0.1)
        = (if (frame msg).getD i false then dft_bit1_value else dft_bit0_value) := by
      apply min_eq_left
      have h01 : (0.1 : ℝ) ≤ specMax (dftNormalize ch) * 0.1 := by nlinarith
      cases hgd : (frame msg).getD i false
      · simp only [Bool.false_eq_true, if_false, dft_bit0_value]
        linarith
      · simp only [if_true, dft_bit1_value]
        linarith
    have habs2 : Complex.abs (dft (dftPreNorm ch msg) (start_idx + i * dft_step))
        = (if (frame msg).getD i false then dft_bit1_value else dft_bit0_value) := by
      rw [hXval, embedSpectrum_at_bin _ _ _ _ i hi, abs_modVal _ _ _ _ hmx0, hampmin]
    unfold dftOut
    by_cases hgt : 1 < peakAbs (dftPreNorm ch msg)
    · rw [if_pos hgt]
      have habs3 : Complex.abs (dft ((dftPreNorm ch msg).map
            (fun s => s / peakAbs (dftPreNorm ch msg))) (start_idx + i * dft_step))
          = (if (frame msg).getD i false then dft_bit1_value else dft_bit0_value)
            / peakAbs (dftPreNorm ch msg) := by
        rw [dft_map_div, map_div₀, habs2, Complex.abs_ofReal,
          abs_of_pos (lt_trans one_pos hgt)]
      simp only [habs3, List.getD_eq_getElem (frame msg) false hi]
      cases hb : (frame msg)[i]
      · simp only [Bool.false_eq_true, if_false]
        rw [decide_eq_false_iff_not, not_lt, div_le_iff₀ (by linarith)]
        simp only [dft_threshold, dft_bit0_value]
        nlinarith
      · simp only [if_true]
        rw [decide_eq_true_eq, lt_div_iff₀ (by linarith)]
        simp only [dft_threshold, dft_bit1_value]
        nlinarith [hd]
    · rw [if_neg hgt]
      simp only [habs2, List.getD_eq_getElem (frame msg) false hi]
      cases hb : (frame msg)[i]
      · simp only [Bool.false_eq_true, if_false]
        rw [decide_eq_false_iff_not, not_lt]
        simp only [dft_threshold, dft_bit0_value]
        norm_num
      · simp only [if_true]
        rw [decide_eq_true_eq]
        simp only [dft_threshold, dft_bit1_value]
        norm_num

/-- Round trip of the frequency-amplitude (DFT) strategy: when the channel has
a nonzero sample, the framed message fits the capacity, every code point is
byte-sized, the framed bits are marker-clean, and the peak of the
reconstructed signal stays below 2 (so the final re-normalization cannot drag
a bit-1 magnitude to or below the threshold), extraction recovers the
embedded message exactly. -/
theorem dft_round_trip_core (ch : List ℝ) (msg : List ℕ) (out : List ℝ)
    (hnz : ∃ s ∈ ch, s ≠ 0) (hcp : ∀ c ∈ msg, c < 256)
    (hclean : MarkerClean (frame msg))
    (hd : peakAbs (dftPreNorm ch msg) < 2)
    (hok : dft_embed ch msg = Except.ok out) :
    dft_extract out = msg := by
  have hnz2 : peakAbs ch ≠ 0 := (dft_normalize_divisor ch).2.1 hnz
  simp only [dft_embed] at hok
  by_cases hcap : (frame msg).length > (ch.length / 2 - start_idx) / dft_step
  · rw [if_pos hcap] at hok
    cases hok
  · rw [if_neg hcap] at hok
    injection hok with hout
    subst hout
    push_neg at hcap
    have htake := dftBits_take_dft ch msg hnz2 hcap hd
    have hsplit : dftBits (dftOut ch msg)
        = frame msg ++ (dftBits (dftOut ch msg)).drop (frame msg).length := by
      calc dftBits (dftOut ch msg)
          = (dftBits (dftOut ch msg)).take (frame msg).length
            ++ (dftBits (dftOut ch msg)).drop (frame msg).length :=
            (List.take_append_drop _ _).symm
        _ = frame msg ++ (dftBits (dftOut ch msg)).drop (frame msg).length := by rw [htake]
    have hscan : runScan (frame msg ++ (dftBits (dftOut ch msg)).drop (frame msg).length)
        = (text_to_binary msg, true) :=
      runScan_frame (text_to_binary msg) _ hclean
    unfold dft_extract
    rw [hsplit, hscan]
    exact (codec_round_trip msg hcp).1

theorem maxList_replicate_zero (m : ℕ) : maxList (List.replicate m (0 : ℝ)) = 0 := by
  induction m with
  | zero => simp [maxList]
  | succ m ih =>
    simp only [List.replicate_succ, maxList, List.foldr_cons] at *
    rw [ih]
    simp

theorem peakAbs_delta (c : ℝ) (m : ℕ) : peakAbs (c :: List.replicate m 0) = |c| := by
  unfold peakAbs
  simp only [List.map_cons, List.map_replicate, abs_zero, maxList, List.foldr_cons]
  have := maxList_replicate_zero m
  unfold maxList at this
  rw [this]
  simp [abs_nonneg]

theorem dftNormalize_peak_one (ch : List ℝ) (h : peakAbs ch = 1) :
    dftNormalize ch = ch := by
  unfold dftNormalize
  rw [h]
  have h1 : ∀ s ∈ ch, s / 1 = s := fun s _ => div_one s
  rw [List.map_congr_left h1]
  exact List.map_id ch

theorem specMax_nonneg (x : List ℝ) : 0 ≤ specMax x := maxList_nonneg _

/-- Every bin of the embedded spectrum stays bounded by any bound that covers
both the original spectrum and the (at most 0.01) forced amplitudes. -/
theorem embedSpectrum_abs_le (X : ℕ → ℂ) (N : ℕ) (bits : List Bool) (mx : ℝ)
    (hmx : 0 ≤ mx) (c : ℝ) (hc : dft_bit1_value ≤ c) (hc0 : dft_bit0_value ≤ dft_bit1_value)
    (hX : ∀ k, Complex.abs (X k) ≤ c) :
    ∀ k, Complex.abs (embedSpectrum X N bits mx k) ≤ c := by
  intro k
  have hmod : ∀ i, Complex.abs (modVal X bits mx i) ≤ c := by
    intro i
    rw [abs_modVal X bits mx i hmx]
    refine le_trans (min_le_left _ _) ?_
    cases h : bits.getD i false
    · simpa using le_trans hc0 hc
    · simpa using hc
  unfold embedSpectrum
  split
  · exact hmod _
  · split
    · rw [Complex.abs_conj]
      exact hmod _
    · exact hX k

/-- C1. Round trip (amended): `extract(embed(samples, M)) = M` for each of the
three strategies whenever the framed bits fit the capacity, with the
additional amendments the code forces: no proper leading portion of the
framed bit stream may end with the end marker (otherwise the streaming scan
truncates early), every code point of M is at most 255 (as presumed by the
claim's own `8*len(M)` formula), M is nonempty for the DCT and DWT strategies
(their extract returns the sentinel for an empty bit string), the DWT channel
length is divisible by 2^5 (the modelled exact-reconstruction regime), and
for the DFT strategy the channel has a nonzero sample and the reconstructed
peak stays below 2 so the final re-normalization cannot cross the detection
threshold. -/
theorem c1_round_trip :
    (∀ ch msg out, (∀ c ∈ msg, c < 256) → msg ≠ [] → MarkerClean (frame msg) →
      dct_embed ch msg = Except.ok out → dct_extract out = msg) ∧
    (∀ ch msg out, 32 ∣ ch.length → (∀ c ∈ msg, c < 256) → msg ≠ [] →
      MarkerClean (frame msg) →
      dwt_embed ch msg = Except.ok out → dwt_extract out = msg) ∧
    (∀ ch msg out, (∃ s ∈ ch, s ≠ 0) → (∀ c ∈ msg, c < 256) →
      MarkerClean (frame msg) → peakAbs (dftPreNorm ch msg) < 2 →
      dft_embed ch msg = Except.ok out → dft_extract out = msg) := by
  refine ⟨?_, ?_, ?_⟩
  · intro ch msg out hcp hne hclean hok
    exact dct_round_trip_core ch msg out hcp hne hclean hok
  · intro ch msg out hdvd hcp hne hclean hok
    exact dwt_round_trip_core ch msg out hdvd hcp hne hclean hok
  · intro ch msg out hnz hcp hclean hd hok
    exact dft_round_trip_core ch msg out hnz hcp hclean hd hok

set_option maxRecDepth 4000 in
/-- Witness: the DCT clause of the amended round trip at the one-character
message "A" on a 24-block zero channel. -/
theorem c1_round_trip_witness :
    dct_embed (List.replicate 24576 (0 : ℝ)) [65]
        = Except.ok (embedBlocks (List.replicate 24576 (0 : ℝ)) (frame [65]))
    ∧ dct_extract (embedBlocks (List.replicate 24576 (0 : ℝ)) (frame [65])) = [65] := by
  have hcap : (frame [65]).length ≤ (List.replicate 24576 (0 : ℝ)).length / block_size := by
    rw [show (frame [65]).length = 24 from by decide, List.length_replicate]
    norm_num [block_size]
  have hok : dct_embed (List.replicate 24576 (0 : ℝ)) [65]
      = Except.ok (embedBlocks (List.replicate 24576 (0 : ℝ)) (frame [65])) := by
    show (if (frame [65]).length > (List.replicate 24576 (0 : ℝ)).length / block_size
        then (Except.error StegoError.capacityError : Except StegoError (List ℝ))
        else Except.ok (embedBlocks (List.replicate 24576 (0 : ℝ)) (frame [65])))
      = Except.ok (embedBlocks (List.replicate 24576 (0 : ℝ)) (frame [65]))
    rw [if_neg (not_lt.mpr hcap)]
  exact ⟨hok, c1_round_trip.1 (List.replicate 24576 (0 : ℝ)) [65] _
    (by decide) (by decide) (by decide) hok⟩

set_option maxRecDepth 4000 in
/-- C1 counterexample (the claim as stated): the two-character message
[255, 254] (i.e. "ÿþ") has framed bit length 32 ≤ capacity of a 32-block
zero channel, yet its own leading 16 bits spell the end marker, so the DCT
extraction stops immediately, strips the marker, finds an empty bit string
and returns the failure sentinel instead of the message. -/
theorem c1_round_trip_counterexample :
    Except.map dct_extract (dct_embed (List.replicate 32768 (0 : ℝ)) [255, 254])
        = Except.ok failMessage ∧ failMessage ≠ [255, 254] := by
  have hframe : frame [255, 254] = (([] : List Bool) ++ END_MARKER) ++ END_MARKER := by
    decide
  have hcap : (frame [255, 254]).length ≤ (List.replicate 32768 (0 : ℝ)).length / block_size := by
    rw [show (frame [255, 254]).length = 32 from by decide, List.length_replicate]
    norm_num [block_size]
  have hok : dct_embed (List.replicate 32768 (0 : ℝ)) [255, 254]
      = Except.ok (embedBlocks (List.replicate 32768 (0 : ℝ)) (frame [255, 254])) := by
    show (if (frame [255, 254]).length > (List.replicate 32768 (0 : ℝ)).length / block_size
        then (Except.error StegoError.capacityError : Except StegoError (List ℝ))
        else Except.ok (embedBlocks (List.replicate 32768 (0 : ℝ)) (frame [255, 254])))
      = Except.ok (embedBlocks (List.replicate 32768 (0 : ℝ)) (frame [255, 254]))
    rw [if_neg (not_lt.mpr hcap)]
  have htake := dctBits_take (List.replicate 32768 (0 : ℝ)) (frame [255, 254]) hcap
  have hsplit : dctBits (embedBlocks (List.replicate 32768 (0 : ℝ)) (frame [255, 254]))
      = frame [255, 254] ++ (dctBits (embedBlocks (List.replicate 32768 (0 : ℝ))
          (frame [255, 254]))).drop (frame [255, 254]).length := by
    calc dctBits (embedBlocks (List.replicate 32768 (0 : ℝ)) (frame [255, 254]))
        = (dctBits (embedBlocks (List.replicate 32768 (0 : ℝ))
            (frame [255, 254]))).take (frame [255, 254]).length
          ++ (dctBits (embedBlocks (List.replicate 32768 (0 : ℝ))
            (frame [255, 254]))).drop (frame [255, 254]).length :=
          (List.take_append_drop _ _).symm
      _ = _ := by rw [htake]
  have hscan : runScan (dctBits (embedBlocks (List.replicate 32768 (0 : ℝ))
      (frame [255, 254]))) = ([], true) := by
    rw [hsplit]
    nth_rewrite 1 [hframe]
    rw [List.append_assoc]
    exact runScan_frame [] _ (by decide)
  have hext : dct_extract (embedBlocks (List.replicate 32768 (0 : ℝ)) (frame [255, 254]))
      = failMessage := by
    unfold dct_extract
    rw [hscan]
    simp
  refine ⟨?_, by decide⟩
  rw [hok]
  simp only [Except.map, hext]

/-- C2. Capacity boundary and atomicity: for each strategy, a message whose
framed bit length equals the strategy's capacity embeds successfully, while a
framed length of capacity + 1 yields the capacity error; the error branch is
taken before any sample is computed, so the failing call returns only the
error value and the caller's channel is untouched (embedding is a pure
function of the input channel). Capacities: `len/block_size` blocks for DCT,
`(len/2 - start_idx)/step` bins for DFT, `len(subband)/step` coefficients of
the level-5 subband for DWT. -/
theorem c2_capacity_boundary :
    (∀ (ch : List ℝ) (msg : List ℕ),
      ((frame msg).length = ch.length / block_size →
        dct_embed ch msg = Except.ok (embedBlocks ch (frame msg))) ∧
      ((frame msg).length = ch.length / block_size + 1 →
        dct_embed ch msg = Except.error StegoError.capacityError)) ∧
    (∀ (ch : List ℝ) (msg : List ℕ),
      ((frame msg).length = (ch.length / 2 - start_idx) / dft_step →
        dft_embed ch msg = Except.ok (dftOut ch msg)) ∧
      ((frame msg).length = (ch.length / 2 - start_idx) / dft_step + 1 →
        dft_embed ch msg = Except.error StegoError.capacityError)) ∧
    (∀ (ch : List ℝ) (msg : List ℕ),
      ((frame msg).length = ((wavedec 5 ch).getD 2 []).length / dwt_step →
        dwt_embed ch msg = Except.ok ((waverec ((wavedec 5 ch).set 2
            (dwtSetFracs ((wavedec 5 ch).getD 2 []) (frame msg)))).take ch.length)) ∧
      ((frame msg).length = ((wavedec 5 ch).getD 2 []).length / dwt_step + 1 →
        dwt_embed ch msg = Except.error StegoError.capacityError)) := by
  refine ⟨fun ch msg => ⟨fun h => ?_, fun h => ?_⟩,
          fun ch msg => ⟨fun h => ?_, fun h => ?_⟩,
          fun ch msg => ⟨fun h => ?_, fun h => ?_⟩⟩
  · simp only [dct_embed]
    rw [if_neg (not_lt.mpr (le_of_eq h))]
  · simp only [dct_embed]
    rw [if_pos (by rw [h]; exact Nat.lt_succ_self _)]
  · simp only [dft_embed]
    rw [if_neg (not_lt.mpr (le_of_eq h))]
  · simp only [dft_embed]
    rw [if_pos (by rw [h]; exact Nat.lt_succ_self _)]
  · simp only [dwt_embed]
    rw [if_neg (not_lt.mpr (le_of_eq h))]
  · simp only [dwt_embed]
    rw [if_pos (by rw [h]; exact Nat.lt_succ_self _)]

set_option maxRecDepth 4000 in
/-- Witness: the DCT clauses of the capacity boundary at the empty message
(16 framed bits) on a 16-block channel (success) and a 15-block channel
(capacity error). -/
theorem c2_capacity_boundary_witness :
    dct_embed (List.replicate 16384 (0 : ℝ)) []
        = Except.ok (embedBlocks (List.replicate 16384 (0 : ℝ)) (frame []))
    ∧ dct_embed (List.replicate 15360 (0 : ℝ)) []
        = Except.error StegoError.capacityError := by
  have hlen : (frame []).length = 16 := by decide
  constructor
  · exact (c2_capacity_boundary.1 (List.replicate 16384 (0 : ℝ)) []).1
      (by rw [hlen, List.length_replicate]; norm_num [block_size])
  · exact (c2_capacity_boundary.1 (List.replicate 15360 (0 : ℝ)) []).2
      (by rw [hlen, List.length_replicate]; norm_num [block_size])

theorem scanAux_not_found : ∀ (l acc : List Bool),
    (scanAux acc l).2 = false → (scanAux acc l).1 = acc ++ l := by
  intro l
  induction l with
  | nil => intro acc _; simp [scanAux]
  | cons b bs ih =>
    intro acc h
    rw [scanAux_cons] at h ⊢
    by_cases hm : END_MARKER <:+ (acc ++ [b])
    · rw [if_pos hm] at h
      simp at h
    · rw [if_neg hm] at h ⊢
      rw [ih (acc ++ [b]) h, List.append_assoc]
      rfl

/-- If the streaming scan never sees the end marker, it returns the whole
candidate bit string unchanged. -/
theorem runScan_not_found (l : List Bool) (h : (runScan l).2 = false) :
    (runScan l).1 = l := by
  have := scanAux_not_found l [] h
  simpa using this

/-- The one channel whose DFT spectrum is constant: the single candidate bin
of a 4004-sample impulse channel has magnitude 0.001 ≤ threshold, so the
candidate bit string is the single bit 0 and the scan never sees the
marker. -/
theorem dftBits_impulse_4004 :
    dftBits ((0.001 : ℝ) :: List.replicate 4003 (0 : ℝ)) = [false] := by
  unfold dftBits
  rw [show ((0.001 : ℝ) :: List.replicate 4003 (0 : ℝ)).length = 4004 from by
    rw [List.length_cons, List.length_replicate]]
  simp only [dft_delta]
  rw [show (4004 / 2 - start_idx) / dft_step = 1 from by norm_num [start_idx, dft_step]]
  rw [show List.range 1 = [0] from rfl, List.map_cons, List.map_nil]
  simp only [List.cons.injEq, and_true]
  rw [decide_eq_false_iff_not, Complex.abs_ofReal,
    show |(0.001 : ℝ)| = 0.001 from abs_of_pos (by norm_num)]
  norm_num [dft_threshold]

/-- C3 (amended). Missing-marker behaviour the code actually has: when the
scan exhausts the candidate bits without finding the end marker, the DCT and
DWT strategies return the decoded partial bit string (not the sentinel)
whenever the candidate bit string is nonempty, and the DFT strategy always
returns the decoded partial bit string — the sentinel is never produced in
the missing-marker case except by DCT/DWT on an empty candidate string.  The
decoded partial string is always distinguishable from the sentinel, whose
code points exceed one byte. -/
theorem c3_missing_marker :
    (∀ ch : List ℝ, (runScan (dctBits ch)).2 = false → dctBits ch ≠ [] →
      dct_extract ch = binary_to_text (dctBits ch) ∧ dct_extract ch ≠ failMessage) ∧
    (∀ ch : List ℝ, (runScan (dwtBits ch)).2 = false → dwtBits ch ≠ [] →
      dwt_extract ch = binary_to_text (dwtBits ch) ∧ dwt_extract ch ≠ failMessage) ∧
    (∀ ch : List ℝ, (runScan (dftBits ch)).2 = false →
      dft_extract ch = binary_to_text (dftBits ch) ∧ dft_extract ch ≠ failMessage) := by
  refine ⟨fun ch h hne => ?_, fun ch h hne => ?_, fun ch h => ?_⟩
  · have h1 := runScan_not_found (dctBits ch) h
    have hnz : ¬ (runScan (dctBits ch)).1.length = 0 := by
      rw [h1, List.length_eq_zero]
      exact hne
    refine ⟨?_, ?_⟩
    · unfold dct_extract
      rw [if_neg hnz, h1]
    · unfold dct_extract
      rw [if_neg hnz, h1]
      exact binary_to_text_ne_failMessage _
  · have h1 := runScan_not_found (dwtBits ch) h
    have hnz : ¬ (runScan (dwtBits ch)).1.length = 0 := by
      rw [h1, List.length_eq_zero]
      exact hne
    refine ⟨?_, ?_⟩
    · unfold dwt_extract
      rw [if_neg hnz, h1]
    · unfold dwt_extract
      rw [if_neg hnz, h1]
      exact binary_to_text_ne_failMessage _
  · have h1 := runScan_not_found (dftBits ch) h
    refine ⟨?_, ?_⟩
    · unfold dft_extract
      rw [h1]
    · unfold dft_extract
      rw [h1]
      exact binary_to_text_ne_failMessage _

/-- C3 counterexample (the claim as stated): on the 4004-sample impulse
channel the DFT extraction scans its full capacity (one bin) without ever
finding the marker, yet it does not return the failure sentinel — it decodes
the partial bit string instead. -/
theorem c3_missing_marker_counterexample :
    (runScan (dftBits ((0.001 : ℝ) :: List.replicate 4003 (0 : ℝ)))).2 = false
    ∧ dft_extract ((0.001 : ℝ) :: List.replicate 4003 (0 : ℝ)) ≠ failMessage := by
  have hb := dftBits_impulse_4004
  refine ⟨by rw [hb]; decide, ?_⟩
  unfold dft_extract
  rw [hb]
  decide

/-- Witness: the DFT clause of the amended missing-marker behaviour at the
4004-sample impulse channel. -/
theorem c3_missing_marker_witness :
    (runScan (dftBits ((0.001 : ℝ) :: List.replicate 4003 (0 : ℝ)))).2 = false
    ∧ dft_extract ((0.001 : ℝ) :: List.replicate 4003 (0 : ℝ))
        = binary_to_text (dftBits ((0.001 : ℝ) :: List.replicate 4003 (0 : ℝ)))
    ∧ dft_extract ((0.001 : ℝ) :: List.replicate 4003 (0 : ℝ)) ≠ failMessage := by
  have hscan : (runScan (dftBits ((0.001 : ℝ) :: List.replicate 4003 (0 : ℝ)))).2 = false := by
    rw [dftBits_impulse_4004]
    decide
  exact ⟨hscan, (c3_missing_marker.2.2 _ hscan).1, (c3_missing_marker.2.2 _ hscan).2⟩

/-- C4 (amended). Empty-message behaviour the code actually has: the sentinel
is a nonempty string, and the DFT strategy does return the empty string after
embedding the empty message (under the usual DFT preconditions); but the DCT
and DWT strategies return the failure sentinel — not the empty string — when
the empty message is embedded and then extracted, because their empty-bits
guard cannot tell "marker found immediately" from "nothing recovered". -/
theorem c4_empty_message :
    failMessage ≠ [] ∧
    (∀ (ch out : List ℝ), (∃ s ∈ ch, s ≠ 0) → peakAbs (dftPreNorm ch []) < 2 →
      dft_embed ch [] = Except.ok out → dft_extract out = []) ∧
    (∀ (ch out : List ℝ), dct_embed ch [] = Except.ok out →
      dct_extract out = failMessage) ∧
    (∀ (ch out : List ℝ), 32 ∣ ch.length → dwt_embed ch [] = Except.ok out →
      dwt_extract out = failMessage) := by
  refine ⟨by decide, fun ch out hnz hpk hok => ?_, fun ch out hok => ?_,
    fun ch out hdvd hok => ?_⟩
  · exact dft_round_trip_core ch [] out hnz (by simp) (by decide) hpk hok
  · simp only [dct_embed] at hok
    by_cases hcap : (frame []).length > ch.length / block_size
    · rw [if_pos hcap] at hok
      cases hok
    · rw [if_neg hcap] at hok
      injection hok with hout
      subst hout
      push_neg at hcap
      have htake := dctBits_take ch (frame []) hcap
      have hsplit : dctBits (embedBlocks ch (frame []))
          = frame [] ++ (dctBits (embedBlocks ch (frame []))).drop (frame []).length := by
        calc dctBits (embedBlocks ch (frame []))
            = (dctBits (embedBlocks ch (frame []))).take (frame []).length
              ++ (dctBits (embedBlocks ch (frame []))).drop (frame []).length :=
              (List.take_append_drop _ _).symm
          _ = frame [] ++ (dctBits (embedBlocks ch (frame []))).drop (frame []).length := by
              rw [htake]
      have hscan : runScan (frame []
          ++ (dctBits (embedBlocks ch (frame []))).drop (frame []).length)
          = (text_to_binary [], true) :=
        runScan_frame (text_to_binary []) _ (by decide)
      unfold dct_extract
      rw [hsplit, hscan, if_pos (by decide)]
  · simp only [dwt_embed] at hok
    by_cases hcap : (frame []).length > ((wavedec 5 ch).getD 2 []).length / dwt_step
    · rw [if_pos hcap] at hok
      cases hok
    · rw [if_neg hcap] at hok
      injection hok with hout
      subst hout
      push_neg at hcap
      have htake := dwtBits_take ch (frame []) hdvd hcap
      set out := (waverec ((wavedec 5 ch).set 2
          (dwtSetFracs ((wavedec 5 ch).getD 2 []) (frame [])))).take ch.length with hodef
      have hsplit : dwtBits out = frame [] ++ (dwtBits out).drop (frame []).length := by
        calc dwtBits out
            = (dwtBits out).take (frame []).length ++ (dwtBits out).drop (frame []).length :=
              (List.take_append_drop _ _).symm
          _ = frame [] ++ (dwtBits out).drop (frame []).length := by rw [htake]
      have hscan : runScan (frame [] ++ (dwtBits out).drop (frame []).length)
          = (text_to_binary [], true) :=
        runScan_frame (text_to_binary []) _ (by decide)
      unfold dwt_extract
      rw [hsplit, hscan, if_pos (by decide)]

set_option maxRecDepth 4000 in
/-- C4 counterexample (the claim as stated): embedding the empty message in a
16-block zero channel with the DCT strategy succeeds (the marker alone is
embedded), yet extraction returns the failure sentinel rather than the empty
string — the two are not distinguished the way the claim asserts. -/
theorem c4_empty_message_counterexample :
    Except.map dct_extract (dct_embed (List.replicate 16384 (0 : ℝ)) [])
        = Except.ok failMessage ∧ failMessage ≠ [] := by
  have hframe0 : frame [] = ([] : List Bool) ++ END_MARKER := by decide
  have hcap : (frame []).length ≤ (List.replicate 16384 (0 : ℝ)).length / block_size := by
    rw [show (frame []).length = 16 from by decide, List.length_replicate]
    norm_num [block_size]
  have hok : dct_embed (List.replicate 16384 (0 : ℝ)) []
      = Except.ok (embedBlocks (List.replicate 16384 (0 : ℝ)) (frame [])) := by
    show (if (frame []).length > (List.replicate 16384 (0 : ℝ)).length / block_size
        then (Except.error StegoError.capacityError : Except StegoError (List ℝ))
        else Except.ok (embedBlocks (List.replicate 16384 (0 : ℝ)) (frame [])))
      = Except.ok (embedBlocks (List.replicate 16384 (0 : ℝ)) (frame []))
    rw [if_neg (not_lt.mpr hcap)]
  have htake := dctBits_take (List.replicate 16384 (0 : ℝ)) (frame []) hcap
  have hsplit : dctBits (embedBlocks (List.replicate 16384 (0 : ℝ)) (frame []))
      = frame [] ++ (dctBits (embedBlocks (List.replicate 16384 (0 : ℝ))
          (frame []))).drop (frame []).length := by
    calc dctBits (embedBlocks (List.replicate 16384 (0 : ℝ)) (frame []))
        = (dctBits (embedBlocks (List.replicate 16384 (0 : ℝ))
            (frame []))).take (frame []).length
          ++ (dctBits (embedBlocks (List.replicate 16384 (0 : ℝ))
            (frame []))).drop (frame []).length :=
          (List.take_append_drop _ _).symm
      _ = _ := by rw [htake]
  have hscan : runScan (dctBits (embedBlocks (List.replicate 16384 (0 : ℝ))
      (frame []))) = ([], true) := by
    rw [hsplit]
    nth_rewrite 1 [hframe0]
    exact runScan_frame [] _ (by decide)
  have hext : dct_extract (embedBlocks (List.replicate 16384 (0 : ℝ)) (frame []))
      = failMessage := by
    unfold dct_extract
    rw [hscan]
    simp
  refine ⟨?_, by decide⟩
  rw [hok]
  simp only [Except.map, hext]

set_option maxRecDepth 4000 in
/-- Witness: the DCT clause of the amended empty-message behaviour at a
16-block zero channel. -/
theorem c4_empty_message_witness :
    dct_embed (List.replicate 16384 (0 : ℝ)) []
        = Except.ok (embedBlocks (List.replicate 16384 (0 : ℝ)) (frame []))
    ∧ dct_extract (embedBlocks (List.replicate 16384 (0 : ℝ)) (frame [])) = failMessage := by
  have hcap : (frame []).length ≤ (List.replicate 16384 (0 : ℝ)).length / block_size := by
    rw [show (frame []).length = 16 from by decide, List.length_replicate]
    norm_num [block_size]
  have hok : dct_embed (List.replicate 16384 (0 : ℝ)) []
      = Except.ok (embedBlocks (List.replicate 16384 (0 : ℝ)) (frame [])) := by
    show (if (frame []).length > (List.replicate 16384 (0 : ℝ)).length / block_size
        then (Except.error StegoError.capacityError : Except StegoError (List ℝ))
        else Except.ok (embedBlocks (List.replicate 16384 (0 : ℝ)) (frame [])))
      = Except.ok (embedBlocks (List.replicate 16384 (0 : ℝ)) (frame []))
    rw [if_neg (not_lt.mpr hcap)]
  exact ⟨hok, c4_empty_message.2.2.1 (List.replicate 16384 (0 : ℝ)) _ hok⟩

end

end Stego
